import Mathlib

/-!
Verification of the spark-jit expression JIT compiler.

This file gives a shallow embedding in Lean 4 of the pipeline
tokenizer → shunting-yard converter → RPN validator → code generator →
executable harness, together with the reference RPN evaluator and the
native helper functions, all translated from the Rust sources
(`math-evaluator/src/tokenizer.rs`, `rpn_converter.rs`, `rpn_evaluator.rs`,
`builtins.rs`, `compiler.rs`, `spark-jit/src/arch/x86.rs`, `writer.rs`,
`mmap.rs`, `executable.rs`).

Machine integers are modelled as `Int` with explicit reduction modulo
`2 ^ 64` (`wrap64`, which lands in the signed range of `i64`); fallible
code returns `Except`/`Option`; Rust panics are modelled as distinguished
error outcomes.
-/

deriving instance DecidableEq for Except

namespace SparkJit

/-! ## Two's-complement arithmetic helpers -/

/-- The signed 64-bit wrap-around: the unique representative of `x` modulo
`2 ^ 64` lying in `[-2 ^ 63, 2 ^ 63)`. This is exactly Rust's release-mode
(`wrapping_*`) `i64` arithmetic and the value of a 64-bit register read as
a signed integer. -/
def wrap64 (x : Int) : Int := (x + 2 ^ 63) % 2 ^ 64 - 2 ^ 63

/-- The signed 32-bit wrap-around, used for the sign extension performed by
the hardware on 32-bit immediates of `81 /0`, `81 /5` and `C7 /0`. -/
def sext32 (x : Int) : Int := (x + 2 ^ 31) % 2 ^ 32 - 2 ^ 31

/-- Rust's `as u32` cast of an `i64`: the low 32 bits, as an unsigned value. -/
def toU32 (x : Int) : Nat := (x % (2 ^ 32 : Int)).toNat

/-- Rust's `as u64` reinterpretation of an `i64`: the low 64 bits unsigned. -/
def toU64 (x : Int) : Nat := (x % (2 ^ 64 : Int)).toNat

/-- `x` fits in a signed 64-bit register. -/
def isI64 (x : Int) : Prop := -(2 ^ 63) ≤ x ∧ x < 2 ^ 63

instance (x : Int) : Decidable (isI64 x) := by unfold isI64; infer_instance

theorem wrap64_isI64 (x : Int) : isI64 (wrap64 x) := by
  unfold isI64 wrap64; omega

theorem wrap64_eq_self {x : Int} (h : isI64 x) : wrap64 x = x := by
  unfold isI64 at h; unfold wrap64; omega

theorem wrap64_emod (x : Int) : wrap64 x % (2 ^ 64 : Int) = x % (2 ^ 64 : Int) := by
  unfold wrap64; omega

theorem wrap64_congr {x y : Int} (h : x % (2 ^ 64 : Int) = y % (2 ^ 64 : Int)) :
    wrap64 x = wrap64 y := by
  unfold wrap64; omega

/-! ## Operators and tokens (`tokenizer.rs`) -/

/-- `enum Op` from `tokenizer.rs`. -/
inductive Op where
  | plus | minus | mult | div | fact | pow
  deriving DecidableEq, Repr

/-- `enum Token` from `tokenizer.rs`. -/
inductive Token where
  | variable (name : String)
  | number (n : Int)
  | unaryOp (op : Op)
  | binaryOp (op : Op)
  | lparen
  | rparen
  deriving DecidableEq, Repr

/-- `enum TokenizerError` from `tokenizer.rs`. The only two variants are
`IntegerParseError` and `UnexpectedCharacter`. -/
inductive TokenizerError where
  | integerParseError
  | unexpectedCharacter (c : Char)
  deriving DecidableEq, Repr

/-- The tokenizer's persistent state (`struct Tokenizer`): the previous token
from earlier in the stream — surviving across `tokenize` calls — and the set
of seen variable names (kept as a list). -/
structure Tokenizer where
  prev : Option Token
  seenVars : List String
  deriving Repr

/-- `Tokenizer::new()`. -/
def Tokenizer.new : Tokenizer := ⟨none, []⟩

/-- `Tokenizer::makes_unary`: true unless the previous token was a number,
a variable, or a closing parenthesis. -/
def makesUnary (prev : Option Token) : Bool :=
  match prev with
  | some (Token.number _) => false
  | some (Token.variable _) => false
  | some Token.rparen => false
  | _ => true

/-- `HashSet::insert` on the seen-variables list (set semantics). -/
def insertVar (v : String) (vs : List String) : List String :=
  if v ∈ vs then vs else v :: vs

/-- The numeric value of a list of ASCII digits in the given radix,
accumulated most-significant first, as `i64::from_str_radix` computes it
(for inputs made only of valid digits). -/
def digitsToNat (radix : Nat) (ds : List Char) : Nat :=
  ds.foldl (fun acc c =>
    acc * radix +
      (if c.isDigit then c.toNat - '0'.toNat
       else if 'a' ≤ c ∧ c ≤ 'f' then c.toNat - 'a'.toNat + 10
       else c.toNat - 'A'.toNat + 10)) 0

/-- `i64::MAX`. -/
def i64Max : Int := 2 ^ 63 - 1

/-- Is this character a continuation character of a variable name
(`is_ascii_alphanumeric || '_'`)? -/
def isVarCont (c : Char) : Bool := c.isAlphanum || c = '_'

/-- Is this character an ASCII hexadecimal digit? -/
def isHexDigit (c : Char) : Bool :=
  c.isDigit || ('a' ≤ c && c ≤ 'f') || ('A' ≤ c && c ≤ 'F')

theorem length_dropWhile_le {α : Type} (p : α → Bool) (l : List α) :
    (l.dropWhile p).length ≤ l.length := by
  induction l with
  | nil => simp
  | cons a l ih =>
    by_cases h : p a
    · simp [List.dropWhile_cons, h]; omega
    · simp [List.dropWhile_cons, h]

/-- The outcome of consuming one character in `Tokenizer::tokenize`:
an error, a pushed token (with the remaining characters), or a skipped
whitespace character. -/
inductive StepRes where
  | err (e : TokenizerError)
  | push (t : Token) (rest : List Char)
  | skip (rest : List Char)
  deriving DecidableEq, Repr

/-- The per-character dispatch of `Tokenizer::tokenize` (the arms of its
`match c`): variables, decimal/hexadecimal numbers (with `i64` range
checking), the operator and parenthesis characters — `+` is always
binary, `-` consults `makes_unary`, `!` is always unary, `^ * /` are
always binary — whitespace, and the unexpected-character error. -/
def tokenizeStep (prev : Option Token) (c : Char) (rest : List Char) :
    StepRes :=
  if c.isAlpha || c = '_' then
    -- variable name: leading alpha/underscore then alphanumeric/underscore
    let name : String := ⟨c :: rest.takeWhile isVarCont⟩
    .push (Token.variable name) (rest.dropWhile isVarCont)
  else if c.isDigit then
    -- number: `0x` after the first digit switches to hexadecimal
    if rest.head? = some 'x' then
      let rest' := rest.tail
      let ds := c :: rest'.takeWhile isHexDigit
      let v : Nat := digitsToNat 16 ds
      if (v : Int) > i64Max then .err .integerParseError
      else .push (Token.number (v : Int)) (rest'.dropWhile isHexDigit)
    else
      let ds := c :: rest.takeWhile Char.isDigit
      let v : Nat := digitsToNat 10 ds
      if (v : Int) > i64Max then .err .integerParseError
      else .push (Token.number (v : Int)) (rest.dropWhile Char.isDigit)
  else if c = '+' then .push (Token.binaryOp Op.plus) rest
  else if c = '-' then
    .push (if makesUnary prev then Token.unaryOp Op.minus
           else Token.binaryOp Op.minus) rest
  else if c = '!' then .push (Token.unaryOp Op.fact) rest
  else if c = '^' then .push (Token.binaryOp Op.pow) rest
  else if c = '*' then .push (Token.binaryOp Op.mult) rest
  else if c = '/' then .push (Token.binaryOp Op.div) rest
  else if c = '(' then .push Token.lparen rest
  else if c = ')' then .push Token.rparen rest
  else if c.isWhitespace then .skip rest
  else .err (.unexpectedCharacter c)

/-- The body of `Tokenizer::tokenize`, one step per consumed character.
`acc` holds the tokens emitted so far in this call, most recent first
(mirroring `tokens` in the Rust, which is read back through
`tokens.last()` to refresh `self.prev` after every character — including
whitespace, which resets `prev` to `None` when no token has been pushed
yet in the current call). A pushed variable's name is recorded in the
seen-variables set, as in the `Variable` arm of the source.

The `fuel` parameter only makes the recursion structural so that the kernel
can evaluate concrete calls; each step consumes at least one character, so
`fuel = cs.length` never runs out, and the exhaustion branch is
unreachable from `tokenize`. -/
def tokenizeLoop (fuel : Nat) (prev : Option Token) (vars : List String)
    (acc : List Token) (cs : List Char) :
    Except TokenizerError (List Token × Option Token × List String) :=
  match cs with
  | [] => .ok (acc.reverse, prev, vars)
  | c :: rest =>
    match fuel with
    | 0 => .error .integerParseError  -- out of fuel: unreachable from `tokenize`
    | fuel + 1 =>
      match tokenizeStep prev c rest with
      | .err e => .error e
      | .push t rest' =>
        let vars' := match t with
          | .variable name => insertVar name vars
          | _ => vars
        tokenizeLoop fuel (some t) vars' (t :: acc) rest'
      | .skip rest' => tokenizeLoop fuel acc.head? vars acc rest'

/-- `Tokenizer::tokenize`: runs the loop on the character stream starting
from the tokenizer's persistent state, returning the token list and the
updated tokenizer. -/
def tokenize (t : Tokenizer) (input : String) :
    Except TokenizerError (List Token × Tokenizer) :=
  (tokenizeLoop input.data.length t.prev t.seenVars [] input.data).map
    fun (toks, prev, vars) => (toks, ⟨prev, vars⟩)

/-! ## Shunting-yard converter (`rpn_converter.rs`) -/

/-- `enum RPNConverterError` from `rpn_converter.rs`, extended with a
`panicked` outcome modelling the two `panic!` arms (`"Unexpected token in
RPN"` in `verify_rpn` and `"Unexpected token on the stack"` in the drain
loop), which are unreachable on real inputs. -/
inductive ConvertError where
  | mismatchedClosingParen
  | mismatchedOpeningParen
  | notEnoughOperands
  | tooManyOperands
  | panicked
  deriving DecidableEq, Repr

/-- `enum Associativity` from `rpn_converter.rs`. -/
inductive Associativity where
  | left | right | na
  deriving DecidableEq, Repr

/-- `struct PrecAssoc` from `rpn_converter.rs`. -/
structure PrecAssoc where
  prec : Int
  assoc : Associativity
  deriving DecidableEq, Repr

/-- `RpnConverter::get_prec_assoc`. -/
def getPrecAssoc (op : Token) : PrecAssoc :=
  match op with
  | .binaryOp .minus | .binaryOp .plus => ⟨1, .left⟩
  | .binaryOp .mult | .binaryOp .div => ⟨2, .left⟩
  | .binaryOp .pow => ⟨4, .right⟩
  | .unaryOp .minus | .unaryOp .plus => ⟨3, .na⟩
  | .unaryOp .fact => ⟨5, .na⟩
  | _ => ⟨0, .na⟩

/-- The pop condition of the binary-operator arm of `RpnConverter::convert`:
given the descriptor `pa1` of the incoming operator and the stack-top token,
pop the top when `a == Left && p ≤ p'` or `a == Right && p < p'`. -/
def shouldPop (pa1 : PrecAssoc) (top : Token) : Bool :=
  let pa2 := getPrecAssoc top
  (pa1.assoc = Associativity.left && pa1.prec ≤ pa2.prec)
    || (pa1.assoc = Associativity.right && pa1.prec < pa2.prec)

/-- The `while !stack.is_empty()` pop loop of the binary-operator arm. -/
def popLoop (pa1 : PrecAssoc) (output stack : List Token) :
    List Token × List Token :=
  match stack with
  | [] => (output, [])
  | top :: rest =>
    if shouldPop pa1 top then popLoop pa1 (output ++ [top]) rest
    else (output, top :: rest)

/-- The `while let Some(tok) = stack.pop()` loop of the `RParen` arm:
pop to output until an `LParen` is found and discarded; `none` when the
stack empties first. -/
def rparenLoop (output stack : List Token) :
    Option (List Token × List Token) :=
  match stack with
  | [] => none
  | tok :: rest =>
    if tok = Token.lparen then some (output, rest)
    else rparenLoop (output ++ [tok]) rest

/-- The end-of-input drain loop of `RpnConverter::convert`. -/
def drainLoop (output stack : List Token) : Except ConvertError (List Token) :=
  match stack with
  | [] => .ok output
  | tok :: rest =>
    match tok with
    | .binaryOp _ | .unaryOp _ => drainLoop (output ++ [tok]) rest
    | .lparen => .error .mismatchedOpeningParen
    | _ => .error .panicked

/-- The main `for token in tokens` loop of `RpnConverter::convert`,
returning the output vector and the remaining operator stack. -/
def convertLoop (output stack : List Token) :
    List Token → Except ConvertError (List Token × List Token)
  | [] => .ok (output, stack)
  | t :: ts =>
    match t with
    | .number _ | .variable _ => convertLoop (output ++ [t]) stack ts
    | .unaryOp _ => convertLoop output (t :: stack) ts
    | .binaryOp _ =>
      let os := popLoop (getPrecAssoc t) output stack
      convertLoop os.1 (t :: os.2) ts
    | .lparen => convertLoop output (t :: stack) ts
    | .rparen =>
      match rparenLoop output stack with
      | none => .error .mismatchedClosingParen
      | some os => convertLoop os.1 os.2 ts

/-- The loop of `RpnConverter::verify_rpn`, threading the running
`n_operands` balance. -/
def verifyLoop (n : Int) : List Token → Except ConvertError Unit
  | [] => if n > 1 then .error .tooManyOperands else .ok ()
  | t :: ts =>
    match t with
    | .lparen | .rparen => .error .panicked
    | _ =>
      let n' : Int :=
        match t with
        | .number _ | .variable _ => n + 1
        | .binaryOp _ => n - 1
        | _ => n
      if n' < 1 then .error .notEnoughOperands else verifyLoop n' ts

/-- `RpnConverter::verify_rpn`. -/
def verifyRpn (tokens : List Token) : Except ConvertError Unit :=
  verifyLoop 0 tokens

/-- `RpnConverter::convert`: shunting yard, end-of-input drain, then
structural validation. -/
def convert (tokens : List Token) : Except ConvertError (List Token) :=
  match convertLoop [] [] tokens with
  | .error e => .error e
  | .ok os =>
    match drainLoop os.1 os.2 with
    | .error e => .error e
    | .ok output =>
      match verifyRpn output with
      | .error e => .error e
      | .ok _ => .ok output

/-- The abstract-stack reading of postfix validity used by the spec: a
literal pushes one value, a unary operator pops one and pushes one, a
binary operator pops two and pushes one; `none` when the stack underflows
(or a parenthesis appears). Tracks only the stack size. -/
def simulateSizes : List Token → Nat → Option Nat
  | [], d => some d
  | t :: ts, d =>
    match t with
    | .number _ | .variable _ => simulateSizes ts (d + 1)
    | .unaryOp _ => if 1 ≤ d then simulateSizes ts d else none
    | .binaryOp _ => if 2 ≤ d then simulateSizes ts (d - 1) else none
    | _ => none

/-! ## Native helpers (`builtins.rs`) and the reference evaluator
(`rpn_evaluator.rs`) -/

/-- `builtins::pow`: `a.wrapping_pow(b as u32)`. The exponent is the `u32`
reinterpretation of `b` (its low 32 bits, unsigned) and every
multiplication wraps modulo `2 ^ 64`, so the result is
`a ^ (b mod 2 ^ 32)` wrapped to `i64`. The reference evaluator's `Pow` arm
(`a.pow(b as u32)`, release mode) computes the same value. -/
def powFn (a b : Int) : Int := wrap64 (a ^ toU32 b)

/-- `builtins::factorial`: `fact = fact.wrapping_mul(i)` over `i in 1..=n`,
starting from 1 (so any `n < 1` yields 1). The reference evaluator's
`Fact` arm (`result *= i` over `1..=a`, release mode) computes the same
value. -/
def factorialFn (n : Int) : Int :=
  (List.range n.toNat).foldl (fun f i => wrap64 (f * ((i : Int) + 1))) 1

/-- `i64::MIN`, the only dividend for which `idiv`/Rust `/` can overflow. -/
def i64Min : Int := -(2 ^ 63)

/-- Failure of `RpnEvaluator::evaluate`: either its
`RpnEvaluatorError::UnknownVariable` or a Rust panic (stack-pop `unwrap`
on an empty stack, division by zero / `i64::MIN / -1` overflow, an
operator variant hitting a `panic!` arm, or a final stack size ≠ 1). -/
inductive RpnEvalError where
  | unknownVariable (name : String)
  | panicked
  deriving DecidableEq, Repr

/-- The token loop of `RpnEvaluator::evaluate`. The evaluation stack is a
list with its top at the head (Rust pushes/pops at the `Vec`'s end).
Arithmetic is Rust release-mode `i64` arithmetic, i.e. wrapping, except
division, which panics on a zero divisor or on `i64::MIN / -1`. -/
def rpnEvalLoop (varsf : String → Option Int) :
    List Token → List Int → Except RpnEvalError (List Int)
  | [], st => .ok st
  | t :: ts, st =>
    match t with
    | .variable name =>
      match varsf name with
      | some v => rpnEvalLoop varsf ts (v :: st)
      | none => .error (.unknownVariable name)
    | .number n => rpnEvalLoop varsf ts (n :: st)
    | .binaryOp op =>
      match st with
      | b :: a :: rest =>
        match op with
        | .plus => rpnEvalLoop varsf ts (wrap64 (a + b) :: rest)
        | .minus => rpnEvalLoop varsf ts (wrap64 (a - b) :: rest)
        | .mult => rpnEvalLoop varsf ts (wrap64 (a * b) :: rest)
        | .div =>
          if b = 0 ∨ (a = i64Min ∧ b = -1) then .error .panicked
          else rpnEvalLoop varsf ts (Int.tdiv a b :: rest)
        | .pow => rpnEvalLoop varsf ts (powFn a b :: rest)
        | .fact => .error .panicked
      | _ => .error .panicked
    | .unaryOp op =>
      match st with
      | a :: rest =>
        match op with
        | .minus => rpnEvalLoop varsf ts (wrap64 (-a) :: rest)
        | .plus => rpnEvalLoop varsf ts (a :: rest)
        | .fact => rpnEvalLoop varsf ts (factorialFn a :: rest)
        | _ => .error .panicked
      | _ => .error .panicked
    | _ => rpnEvalLoop varsf ts st  -- parens are silently skipped (`_ => {}`)

/-- `RpnEvaluator::evaluate`: run the loop on an empty stack and demand a
single final value. -/
def rpnEvaluate (tokens : List Token) (varsf : String → Option Int) :
    Except RpnEvalError Int :=
  match rpnEvalLoop varsf tokens [] with
  | .error e => .error e
  | .ok [v] => .ok v
  | .ok _ => .error .panicked

/-! ## x86-64 machine model (semantics of the instructions emitted by
`compiler.rs`, encodings from `arch/x86.rs`) -/

/-- `enum Reg64` from `arch/x86.rs`, with its numeric encoding. -/
inductive Reg64 where
  | rax | rcx | rdx | rbx | rsp | rbp | rsi | rdi
  | r8 | r9 | r10 | r11 | r12 | r13 | r14 | r15
  deriving DecidableEq, Repr

/-- The numeric value of a register (`Reg64 as u8`). -/
def regNum : Reg64 → Nat
  | .rax => 0 | .rcx => 1 | .rdx => 2 | .rbx => 3
  | .rsp => 4 | .rbp => 5 | .rsi => 6 | .rdi => 7
  | .r8 => 8 | .r9 => 9 | .r10 => 10 | .r11 => 11
  | .r12 => 12 | .r13 => 13 | .r14 => 14 | .r15 => 15

/-- The instruction forms actually emitted by `Compiler::compile` through
`X86Asm` (a subset of the assembler's repertoire; all with 64-bit operand
size). Immediates are recorded exactly as passed to the assembler. -/
inductive Instr where
  | movRR (dst src : Reg64)                 -- mov dst, src
  | movRI (dst : Reg64) (imm : Int)         -- mov dst, imm64  (B8+rd, 8-byte imm)
  | movMR (base : Reg64) (disp : Int) (src : Reg64)  -- mov [base+disp32], src
  | movRM (dst base : Reg64) (disp : Int)   -- mov dst, [base+disp32]
  | addRR (dst src : Reg64)                 -- add dst, src
  | addRI (dst : Reg64) (imm : Int)         -- add dst, imm32 (sign-extended)
  | subRR (dst src : Reg64)                 -- sub dst, src
  | subRI (dst : Reg64) (imm : Int)         -- sub dst, imm32 (sign-extended)
  | negR (r : Reg64)                        -- neg r
  | imulR (r : Reg64)                       -- imul r (RDX:RAX := RAX * r)
  | cqo                                     -- sign-extend RAX into RDX
  | idivR (r : Reg64)                       -- idiv r (RDX:RAX / r)
  | pushR (r : Reg64)                       -- push r
  | popR (r : Reg64)                        -- pop r
  | callR (r : Reg64)                       -- call r
  | ret
  deriving DecidableEq, Repr

/-- Machine state: the sixteen 64-bit registers (values kept in the signed
`i64` range), a flat 64-bit-word memory indexed by byte address (the eval
stack and variables areas live here), and the machine call stack used by
`push`/`pop`. -/
structure Machine where
  regs : Reg64 → Int
  mem : Int → Int
  mstack : List Int

/-- Functional register-file update. -/
def setReg (m : Machine) (r : Reg64) (v : Int) : Machine :=
  { m with regs := fun r' => if r' = r then v else m.regs r' }

/-- Functional memory update (of the 8-byte word at the given address). -/
def setMem (m : Machine) (a v : Int) : Machine :=
  { m with mem := fun a' => if a' = a then v else m.mem a' }

/-- Semantics of one emitted instruction. `powAddr` and `factAddr` are the
absolute addresses of the two native helpers; an indirect call transfers
to whichever helper the target register holds, with the System V argument
registers RDI/RSI carrying the arguments and RAX the return value.
`none` models a hardware fault (`idiv` by zero or quotient overflow) or a
call to an address that is not a known helper. `ret` ends execution and is
handled by `execInstrs`. -/
def execInstr (powAddr factAddr : Int) (i : Instr) (m : Machine) :
    Option Machine :=
  match i with
  | .movRR dst src => some (setReg m dst (m.regs src))
  | .movRI dst imm => some (setReg m dst (wrap64 imm))
  | .movMR base disp src =>
    some (setMem m (wrap64 (m.regs base + sext32 disp)) (m.regs src))
  | .movRM dst base disp =>
    some (setReg m dst (m.mem (wrap64 (m.regs base + sext32 disp))))
  | .addRR dst src => some (setReg m dst (wrap64 (m.regs dst + m.regs src)))
  | .addRI dst imm => some (setReg m dst (wrap64 (m.regs dst + sext32 imm)))
  | .subRR dst src => some (setReg m dst (wrap64 (m.regs dst - m.regs src)))
  | .subRI dst imm => some (setReg m dst (wrap64 (m.regs dst - sext32 imm)))
  | .negR r => some (setReg m r (wrap64 (-m.regs r)))
  | .imulR r =>
    let full := m.regs .rax * m.regs r
    some (setReg (setReg m .rax (wrap64 full)) .rdx (full / 2 ^ 64))
  | .cqo => some (setReg m .rdx (if m.regs .rax < 0 then -1 else 0))
  | .idivR r =>
    let d := m.regs r
    if d = 0 then none
    else
      let n := m.regs .rdx * 2 ^ 64 + (m.regs .rax) % 2 ^ 64
      let q := Int.tdiv n d
      if q < -(2 ^ 63) ∨ 2 ^ 63 ≤ q then none
      else some (setReg (setReg m .rax q) .rdx (Int.tmod n d))
  | .pushR r => some { m with mstack := m.regs r :: m.mstack }
  | .popR r =>
    match m.mstack with
    | [] => none
    | v :: rest => some { setReg m r v with mstack := rest }
  | .callR r =>
    let t := m.regs r
    if t = powAddr then
      some (setReg m .rax (powFn (m.regs .rdi) (m.regs .rsi)))
    else if t = factAddr then
      some (setReg m .rax (factorialFn (m.regs .rdi)))
    else none
  | .ret => some m

/-- Run a straight-line instruction sequence. -/
def execInstrs (powAddr factAddr : Int) :
    List Instr → Machine → Option Machine
  | [], m => some m
  | i :: is, m =>
    match execInstr powAddr factAddr i m with
    | none => none
    | some m' => execInstrs powAddr factAddr is m'

/-! ## The JIT compiler (`compiler.rs`) -/

/-- `enum CompilerError` from `compiler.rs`, extended with a `panicked`
outcome for the `panic!("Unexpected token")` arm. -/
inductive CompileError where
  | unsupportedOp (op : Op)
  | unknownOp (op : Op)
  | panicked
  deriving DecidableEq, Repr

/-- `ARG1 = R8`, `ARG2 = R9`, `VARS_BASE = R13`, `EVAL_STACK = R14`,
`SCRATCH_REG = R15` — the register roles fixed in `compiler.rs`. -/
def ARG1 : Reg64 := .r8
def ARG2 : Reg64 := .r9
def VARS_BASE : Reg64 := .r13
def EVAL_STACK : Reg64 := .r14
def SCRATCH_REG : Reg64 := .r15

/-- `SYSTEMV_CALLING_CONV`: RDI, RSI, RDX, RCX, R8, R9. -/
def SYSTEMV_CALLING_CONV : List Reg64 := [.rdi, .rsi, .rdx, .rcx, .r8, .r9]

/-- An emitted instruction paired with whether its bytes are fed to the
integrity hasher (everything inside a `with_integrity!` block is; the
`mov RAX, imm64` holding a helper address is not). -/
abbrev Emit := Instr × Bool

/-- `Compiler::push_eval_stack` for a 64-bit immediate operand: materialize
through `SCRATCH_REG`, store at `[EVAL_STACK]`, bump `EVAL_STACK` by 8. -/
def pushEvalImm (n : Int) : List Emit :=
  [(.movRI SCRATCH_REG n, true),
   (.movMR EVAL_STACK 0 SCRATCH_REG, true),
   (.addRI EVAL_STACK 8, true)]

/-- `Compiler::push_eval_stack` for a register operand. -/
def pushEvalReg (r : Reg64) : List Emit :=
  [(.movMR EVAL_STACK 0 r, true), (.addRI EVAL_STACK 8, true)]

/-- `Compiler::pop_eval_stack` into the given register. -/
def popEval (r : Reg64) : List Emit :=
  [(.subRI EVAL_STACK 8, true), (.movRM r EVAL_STACK 0, true)]

/-- `Compiler::compile_native_call`: load the argument registers in
calling-convention order, materialize the helper's absolute address into
RAX *outside* the integrity hash, call RAX, and push the returned RAX. -/
def nativeCall (funcAddr : Int) (args : List Reg64) : List Emit :=
  ((SYSTEMV_CALLING_CONV.zip args).map fun p => ((.movRR p.1 p.2 : Instr), true))
    ++ [(.movRI .rax funcAddr, false), (.callR .rax, true)]
    ++ pushEvalReg .rax

/-- `variables_map.entry(name).or_insert_with(|| len)`: the catalog is the
list of names in first-use order, a name's slot is its position. -/
def lookupOrInsert (vm : List String) (name : String) : List String × Nat :=
  match vm.indexOf? name with
  | some i => (vm, i)
  | none => (vm ++ [name], vm.length)

/-- The per-token lowering of `Compiler::compile`, also threading the
variable catalog. -/
def compileToken (powAddr factAddr : Int) (vm : List String) :
    Token → Except CompileError (List Emit × List String)
  | .variable name =>
    let vi := lookupOrInsert vm name
    .ok ([(.movRR SCRATCH_REG VARS_BASE, true),
          (.addRI SCRATCH_REG ((vi.2 : Int) * 8), true),
          (.movRM SCRATCH_REG SCRATCH_REG 0, true)]
         ++ pushEvalReg SCRATCH_REG, vi.1)
  | .number n => .ok (pushEvalImm n, vm)
  | .binaryOp op =>
    let pops := popEval ARG1 ++ popEval ARG2
    match op with
    | .plus => .ok (pops ++ [(.addRR ARG1 ARG2, true)] ++ pushEvalReg ARG1, vm)
    | .minus => .ok (pops ++ [(.subRR ARG2 ARG1, true)] ++ pushEvalReg ARG2, vm)
    | .mult =>
      .ok (pops ++ [(.movRR .rax ARG1, true), (.imulR ARG2, true)]
           ++ pushEvalReg .rax, vm)
    | .div =>
      .ok (pops ++ [(.movRR .rax ARG2, true), (.cqo, true), (.idivR ARG1, true)]
           ++ pushEvalReg .rax, vm)
    | .pow => .ok (pops ++ nativeCall powAddr [ARG2, ARG1], vm)
    | _ => .error (.unknownOp .fact)
  | .unaryOp op =>
    let pop1 := popEval ARG1
    match op with
    | .plus => .ok (pop1 ++ pushEvalReg ARG1, vm)
    | .minus => .ok (pop1 ++ [(.negR ARG1, true)] ++ pushEvalReg ARG1, vm)
    | .fact => .ok (pop1 ++ nativeCall factAddr [ARG1], vm)
    | op => .error (.unknownOp op)
  | _ => .error .panicked

/-- The token loop of `Compiler::compile`. -/
def compileLoop (powAddr factAddr : Int) (vm : List String) :
    List Token → Except CompileError (List Emit × List String)
  | [] => .ok ([], vm)
  | t :: ts =>
    match compileToken powAddr factAddr vm t with
    | .error e => .error e
    | .ok r1 =>
      match compileLoop powAddr factAddr r1.2 ts with
      | .error e => .error e
      | .ok r2 => .ok (r1.1 ++ r2.1, r2.2)

/-- `Compiler::compile_prologue`: save the registers the generated code
uses, in the source's order. -/
def prologue : List Emit :=
  [(.pushR .r12, true), (.pushR .r13, true), (.pushR .r14, true),
   (.pushR .r15, true), (.pushR .rbx, true), (.pushR .rbp, true),
   (.pushR .rdi, true), (.pushR .rsi, true)]

/-- `Compiler::compile_epilogue`: restore in reverse order. -/
def epilogue : List Emit :=
  [(.popR .rsi, true), (.popR .rdi, true), (.popR .rbp, true),
   (.popR .rbx, true), (.popR .r15, true), (.popR .r14, true),
   (.popR .r13, true), (.popR .r12, true)]

/-- `Compiler::compile`: prologue, load `EVAL_STACK`/`VARS_BASE` from the
two argument registers, lower every token, pop the result into RAX,
epilogue, `ret`. Returns the emitted sequence (with per-instruction
hashing flags) and the variable catalog. -/
def compile (powAddr factAddr : Int) (rpn : List Token) :
    Except CompileError (List Emit × List String) :=
  match compileLoop powAddr factAddr [] rpn with
  | .error e => .error e
  | .ok body =>
    .ok (prologue
          ++ [(.movRR EVAL_STACK .rdi, true), (.movRR VARS_BASE .rsi, true)]
          ++ body.1
          ++ popEval .rax
          ++ epilogue
          ++ [(.ret, true)], body.2)

/-- The machine state at entry of the generated function: RDI holds the
eval-stack base (address 0 in our flat memory), RSI the variables base;
memory and the remaining registers are zero. -/
def initMachine : Machine := ⟨fun _ => 0, fun _ => 0, []⟩

/-- Run the generated code natively: compile the postfix expression and
execute the emitted instructions from the entry state, reading the result
from RAX. `none` models a compilation error or a hardware fault during
execution. -/
def jitRun (powAddr factAddr : Int) (rpn : List Token) : Option Int :=
  match compile powAddr factAddr rpn with
  | .error _ => none
  | .ok r =>
    (execInstrs powAddr factAddr (r.1.map Prod.fst) initMachine).map
      fun m => m.regs .rax

/-! ## Byte encodings (`arch/x86.rs` + `writer.rs`) -/

/-- `X86Asm::encode_reg`: the low three bits of the register number. -/
def encReg (r : Reg64) : Nat := regNum r % 8

/-- The REX.B bit for a register in the r/m or opcode-register position. -/
def rexB (r : Reg64) : Nat := if 8 ≤ regNum r then 1 else 0

/-- Little-endian byte list of the low `k` bytes of `v`. -/
def leBytes (k v : Nat) : List Nat :=
  (List.range k).map fun i => v / 256 ^ i % 256

/-- `emit32(imm as u32)`: the four little-endian bytes of the low 32 bits. -/
def imm32Bytes (imm : Int) : List Nat := leBytes 4 (imm % (2 ^ 32 : Int)).toNat

/-- `emit64(imm as u64)`: the eight little-endian bytes of the low 64 bits. -/
def imm64Bytes (imm : Int) : List Nat := leBytes 8 (imm % (2 ^ 64 : Int)).toNat

/-- The bytes `X86Asm` emits for each instruction form used by the
compiler (all with REX.W set; ModR/M `mod = 11` for register-direct and
`mod = 10` plus a 32-bit displacement for `[base + disp32]`), following
`emit_rex_mr` / `emit_rex_rm` / `emit_rex_slash` / `emit_modrm` and the
per-instruction opcodes of `arch/x86.rs`. -/
def encode : Instr → List Nat
  | .movRR dst src =>
    [0x48 + 4 * rexB src + rexB dst, 0x89, 0xC0 + 8 * encReg src + encReg dst]
  | .movRI dst imm =>
    [0x48 + rexB dst, 0xB8 + encReg dst] ++ imm64Bytes imm
  | .movMR base disp src =>
    [0x48 + 4 * rexB src + rexB base, 0x89, 0x80 + 8 * encReg src + encReg base]
      ++ imm32Bytes disp
  | .movRM dst base disp =>
    [0x48 + 4 * rexB dst + rexB base, 0x8B, 0x80 + 8 * encReg dst + encReg base]
      ++ imm32Bytes disp
  | .addRR dst src =>
    [0x48 + 4 * rexB src + rexB dst, 0x01, 0xC0 + 8 * encReg src + encReg dst]
  | .addRI dst imm =>
    [0x48 + rexB dst, 0x81, 0xC0 + encReg dst] ++ imm32Bytes imm
  | .subRR dst src =>
    [0x48 + 4 * rexB src + rexB dst, 0x29, 0xC0 + 8 * encReg src + encReg dst]
  | .subRI dst imm =>
    [0x48 + rexB dst, 0x81, 0xE8 + encReg dst] ++ imm32Bytes imm
  | .negR r => [0x48 + rexB r, 0xF7, 0xD8 + encReg r]
  | .imulR r => [0x48 + rexB r, 0xF7, 0xE8 + encReg r]
  | .cqo => [0x48, 0x99]
  | .idivR r => [0x48 + rexB r, 0xF7, 0xF8 + encReg r]
  | .pushR r => [0x48 + rexB r, 0x50 + encReg r]
  | .popR r => [0x48 + rexB r, 0x58 + encReg r]
  | .callR r => [0x48 + rexB r, 0xFF, 0xD0 + encReg r]
  | .ret => [0xC3]

/-- All bytes of the generated code blob, in emission order. -/
def codeBytes (emits : List Emit) : List Nat :=
  (emits.map fun e => encode e.1).flatten

/-- The byte stream fed to the SHA-256 integrity hasher: the bytes of every
emission inside a `with_integrity!` block, in order. The final integrity
digest is SHA-256 of exactly this stream, so two equal streams yield equal
digests. -/
def hashedBytes (emits : List Emit) : List Nat :=
  ((emits.filter fun e => e.2).map fun e => encode e.1).flatten

/-- The SHA-256 input stream for a compilation of `rpn` with the two
helper addresses, when compilation succeeds. -/
def integrityInput (powAddr factAddr : Int) (rpn : List Token) :
    Option (List Nat) :=
  match compile powAddr factAddr rpn with
  | .error _ => none
  | .ok r => some (hashedBytes r.1)

/-- Modelled from the spec's wording of the hashing rule (for comparison
with the implementation): every emitted byte is hashed **except the
8-byte immediate** of the `mov RAX, imm64` of a native-call sequence —
i.e. that instruction still contributes its REX prefix and opcode byte.
-/
def hashedBytesImmOnlyExcluded (emits : List Emit) : List Nat :=
  (emits.map fun e =>
    match e.1 with
    | .movRI .rax _ => (encode e.1).take 2
    | _ => encode e.1).flatten

/-! ## Memory regions (`mmap.rs`) and the executable harness
(`executable.rs`) -/

/-- A protection state of a mapping: `NONE`, `RW`, `RX` or `RWX`
(`PROT_READ | PROT_WRITE | PROT_EXEC` combinations used in `mmap.rs`). -/
inductive Prot where
  | noAccess | rw | rx | rwx
  deriving DecidableEq, Repr

/-- `MmapBuf::is_executable`: `protect & PROT_EXEC != 0`. -/
def Prot.isExecutable : Prot → Bool
  | .rx | .rwx => true
  | _ => false

/-- Does the protection include `PROT_WRITE`? -/
def Prot.isWritable : Prot → Bool
  | .rw | .rwx => true
  | _ => false

/-- A memory-mapped buffer: its size and current protection
(`struct MmapBuf`, addresses abstracted away). -/
structure MmapBuf where
  size : Nat
  protect : Prot
  deriving DecidableEq, Repr

/-- `MmapBuf::page_aligned_size` for 4096-byte pages. -/
def pageAlignedSize (size : Nat) : Nat := (size + 4095) / 4096 * 4096

/-- `MmapBuf::new`: a fresh page-aligned anonymous mapping, created `RW`. -/
def MmapBuf.new (size : Nat) : MmapBuf := ⟨pageAlignedSize size, .rw⟩

/-- `MmapBuf::protect_rwx`. -/
def MmapBuf.protectRwx (m : MmapBuf) : MmapBuf := { m with protect := .rwx }

/-- `MmapBuf::protect_rx`. -/
def MmapBuf.protectRx (m : MmapBuf) : MmapBuf := { m with protect := .rx }

/-- `MmapBuf::split_end`: carve `k` bytes off the tail into a new buffer
that inherits the parent's current protection. -/
def MmapBuf.splitEnd (m : MmapBuf) (k : Nat) : Option (MmapBuf × MmapBuf) :=
  if m.size < k then none
  else some ({ m with size := m.size - k }, ⟨k, m.protect⟩)

/-- `EVAL_STACK_SIZE` from `executable.rs`: 16 KiB. -/
def EVAL_STACK_SIZE : Nat := 16 * 1024

/-- `enum ExecutableError` from `executable.rs` (the source's spelling of
the uninitialized-variable variant is `UnititializedVariable`). -/
inductive ExecutableError where
  | codeNotGenerated
  | codeMemoryNotExecutable
  | evalStackNotMmaped
  | unknownVariable (name : String)
  | unititializedVariable (name : String)
  deriving DecidableEq, Repr

/-- The executable artifact (`struct Executable`): the code region and the
eval-stack region with their protections, the variable catalog (names in
slot order), and the integrity digest input. -/
structure Executable where
  code : Option MmapBuf
  evalStack : Option MmapBuf
  variablesMap : List String
  integrity : List Nat
  deriving DecidableEq, Repr

/-- `Executable::new`: allocate one RW mapping sized for the eval stack
plus the code, make the whole mapping RWX, split the code region off its
tail (inheriting RWX), and copy the code bytes in while it is RWX.
Returns the executable together with the protection the code region had
at the moment the bytes were written. `none` would require the split to
fail, which cannot happen at this size. -/
def Executable.new (codeLen : Nat) (integrity : List Nat)
    (variablesMap : List String) : Option (Executable × Prot) :=
  let stackAndCode := (MmapBuf.new (EVAL_STACK_SIZE + codeLen)).protectRwx
  match stackAndCode.splitEnd codeLen with
  | none => none
  | some sc =>
    -- `ptr::copy_nonoverlapping` of the code bytes happens here, while the
    -- code region's protection is `sc.2.protect`.
    some (⟨some sc.2, some sc.1, variablesMap, integrity⟩, sc.2.protect)

/-- The variables-area preparation loop of `Executable::run`: write every
input entry whose name is in the catalog to its slot (recording it as
initialized), skip the others with a diagnostic; then fail with
`UnititializedVariable` on the first catalog entry that was never
written. Returns the dense variables area. -/
def prepareVars (catalog : List String) (input : List (String × Int)) :
    Except ExecutableError (List Int) :=
  let area := input.foldl
    (fun area p =>
      match catalog.indexOf? p.1 with
      | some off => area.set off p.2
      | none => area)  -- diagnostic printed, entry ignored
    (List.replicate catalog.length 0)
  let initialized := (input.filter fun p => catalog.contains p.1).map Prod.fst
  match catalog.find? (fun name => ! initialized.contains name) with
  | some name => .error (.unititializedVariable name)
  | none => .ok area

/-- `Executable::run`: check the code region exists and is executable,
check the eval-stack region exists, prepare the variables area, then
invoke the native code (modelled by `native`, a function of the variables
area; `none` is a hardware fault). The inner `Option` of a successful
result is the native call's outcome. -/
def Executable.run (e : Executable) (native : List Int → Option Int)
    (input : List (String × Int)) :
    Except ExecutableError (Option Int) :=
  match e.code with
  | none => .error .codeNotGenerated
  | some codeMap =>
    if ¬ codeMap.protect.isExecutable then .error .codeMemoryNotExecutable
    else
      match e.evalStack with
      | none => .error .evalStackNotMmaped
      | some _ =>
        match prepareVars e.variablesMap input with
        | .error err => .error err
        | .ok area => .ok (native area)

/-! ## Small computation lemmas -/

theorem sext32_zero : sext32 0 = 0 := by decide

theorem sext32_eight : sext32 8 = 8 := by decide

set_option maxRecDepth 8000 in
/-- **C9**: `Tokenizer::tokenize` is not a pure function of its input
string: `self.prev` persists across calls on the same instance, so after
tokenizing `"1"` (which leaves `prev = Some(Number(1))`), tokenizing an
input starting with `-` classifies it as a binary operator, while a fresh
tokenizer classifies the same `-` as unary. -/
theorem c9_tokenize_stateful :
    tokenize Tokenizer.new "1" =
      .ok ([Token.number 1], ⟨some (Token.number 1), []⟩) ∧
    (tokenize ⟨some (Token.number 1), []⟩ "-2").map Prod.fst =
      .ok [Token.binaryOp Op.minus, Token.number 2] ∧
    (tokenize Tokenizer.new "-2").map Prod.fst =
      .ok [Token.unaryOp Op.minus, Token.number 2] ∧
    (tokenize ⟨some (Token.number 1), []⟩ "-2").map Prod.fst ≠
      (tokenize Tokenizer.new "-2").map Prod.fst :=
  ⟨rfl, rfl, rfl, by decide⟩

set_option maxRecDepth 8000 in
/-- **C2** (counterexample): the claim says a `+` at the start of the input
is classified as a unary operator; in the code the `'+'` arm of
`Tokenizer::tokenize` unconditionally pushes `BinaryOp(Plus)` — only `-`
consults `makes_unary`. At the very start of input (`prev = None`,
`makes_unary` holds) the tokenizer still produces a binary `+`. -/
theorem c2_counterexample :
    Tokenizer.new.prev = none ∧
    makesUnary Tokenizer.new.prev = true ∧
    (tokenize Tokenizer.new "+1").map Prod.fst =
      .ok [Token.binaryOp Op.plus, Token.number 1] ∧
    Token.binaryOp Op.plus ≠ Token.unaryOp Op.plus :=
  ⟨rfl, rfl, rfl, by decide⟩

/-- **C2** (amended): when the tokenizer consumes a `-`, the emitted token
is `UnaryOp(Minus)` exactly when the previous token is not a `Number`,
`Variable` or `RParen` (including at the start of input), and
`BinaryOp(Minus)` otherwise; a consumed `+` always emits
`BinaryOp(Plus)`, regardless of the previous token. -/
theorem c2_plus_minus_classification (fuel : Nat) (prev : Option Token)
    (vars : List String) (acc : List Token) (rest : List Char) :
    (tokenizeLoop (fuel + 1) prev vars acc ('-' :: rest) =
      (if makesUnary prev then
        tokenizeLoop fuel (some (Token.unaryOp Op.minus)) vars
          (Token.unaryOp Op.minus :: acc) rest
      else
        tokenizeLoop fuel (some (Token.binaryOp Op.minus)) vars
          (Token.binaryOp Op.minus :: acc) rest)) ∧
    (tokenizeLoop (fuel + 1) prev vars acc ('+' :: rest) =
      tokenizeLoop fuel (some (Token.binaryOp Op.plus)) vars
        (Token.binaryOp Op.plus :: acc) rest) ∧
    (makesUnary prev = false ↔
      (∃ n, prev = some (Token.number n)) ∨
      (∃ name, prev = some (Token.variable name)) ∨
      prev = some Token.rparen) := by
  refine ⟨?_, ?_, ?_⟩
  · cases prev with
    | none => rfl
    | some t => cases t <;> rfl
  · rfl
  · unfold makesUnary
    rcases prev with _ | t
    · simp
    · cases t <;> simp

set_option maxRecDepth 8000 in
/-- **C5** (counterexample): the claim says the literal
`9223372036854775808` (`2^63`) tokenizes successfully as a `Number`; in
the code `i64::from_str_radix` rejects any value above `i64::MAX = 2^63 -
1`, and the resulting error variant is named `IntegerParseError` — the
tokenizer has no `IntegerOverflow` variant at all. -/
theorem c5_counterexample :
    (tokenize Tokenizer.new "9223372036854775808").map Prod.fst =
      .error .integerParseError := by decide

/-- The ten ASCII decimal digit characters. -/
def digitChars : List Char := ['0', '1', '2', '3', '4', '5', '6', '7', '8', '9']

theorem digitChars_isDigit {c : Char} (h : c ∈ digitChars) :
    c.isDigit = true := by fin_cases h <;> decide

theorem digitChars_notVarStart {c : Char} (h : c ∈ digitChars) :
    (c.isAlpha || c = '_') = false := by fin_cases h <;> decide

theorem digitChars_ne_x {c : Char} (h : c ∈ digitChars) : c ≠ 'x' := by
  fin_cases h <;> decide

theorem takeWhile_eq_self {α : Type} {p : α → Bool} {l : List α}
    (h : ∀ c ∈ l, p c = true) : l.takeWhile p = l := by
  induction l with
  | nil => rfl
  | cons a l ih =>
    rw [List.takeWhile_cons, h a (by simp)]
    simp only [if_true, ih fun c hc => h c (by simp [hc])]

set_option maxRecDepth 8000 in
/-- **C5** (amended): decimal literals up to `i64::MAX = 2^63 - 1 =
9223372036854775807` tokenize as `Number`; any all-digit literal whose
value exceeds `2^63 - 1` (so `2^63 = 9223372036854775808` already, not
only `2^63 + 1`) makes the tokenizer fail, and the error is named
`IntegerParseError` (the tokenizer has no `IntegerOverflow` variant). -/
theorem c5_literal_bounds :
    (tokenize Tokenizer.new "9223372036854775807").map Prod.fst =
      .ok [Token.number i64Max] ∧
    (∀ (t : Tokenizer) (ds : List Char), ds ≠ [] → (∀ c ∈ ds, c ∈ digitChars) →
      i64Max < (digitsToNat 10 ds : Int) →
      tokenize t ⟨ds⟩ = .error .integerParseError) := by
  constructor
  · decide
  · intro t ds hne hdig hbig
    obtain ⟨d, rest, rfl⟩ := List.exists_cons_of_ne_nil hne
    have hstep : tokenizeStep t.prev d rest = .err .integerParseError := by
      unfold tokenizeStep
      rw [digitChars_notVarStart (hdig d (by simp))]
      rw [digitChars_isDigit (hdig d (by simp))]
      have hx : rest.head? ≠ some 'x' := by
        cases rest with
        | nil => simp
        | cons r rs =>
          intro h
          rw [List.head?_cons, Option.some.injEq] at h
          exact digitChars_ne_x (hdig r (by simp)) h
      simp only [Bool.false_eq_true, if_false, if_true, hx, if_neg hx]
      rw [takeWhile_eq_self fun c hc => digitChars_isDigit (hdig c (by simp [hc]))]
      rw [if_pos hbig]
    show (tokenizeLoop (d :: rest).length t.prev t.seenVars [] (d :: rest)).map _ = _
    rw [List.length_cons, tokenizeLoop, hstep]
    rfl

/-- **C6**: when the converter processes a binary operator with descriptor
`pa`, its pop loop moves to the output exactly the maximal prefix of the
operator stack whose elements `top` satisfy
`(pa.assoc = Left ∧ pa.prec ≤ prec top) ∨ (pa.assoc = Right ∧
pa.prec < prec top)`, leaving the rest of the stack (the new operator is
then pushed by the `BinaryOp` arm of `convert`); with the given
precedence table this makes `^` right-associative, so
`2 ^ 3 ^ 2` converts to `2 3 2 ^ ^`. -/
theorem c6_binary_pop_rule :
    (∀ (pa : PrecAssoc) (out stack : List Token),
      popLoop pa out stack =
        (out ++ stack.takeWhile (shouldPop pa),
         stack.dropWhile (shouldPop pa))) ∧
    (∀ (pa : PrecAssoc) (top : Token),
      shouldPop pa top = true ↔
        (pa.assoc = Associativity.left ∧ pa.prec ≤ (getPrecAssoc top).prec) ∨
        (pa.assoc = Associativity.right ∧ pa.prec < (getPrecAssoc top).prec)) ∧
    (∀ (ts : List Token) (op : Op) (out stack : List Token),
      convertLoop out stack (Token.binaryOp op :: ts) =
        convertLoop (out ++ stack.takeWhile (shouldPop (getPrecAssoc (Token.binaryOp op))))
          (Token.binaryOp op :: stack.dropWhile (shouldPop (getPrecAssoc (Token.binaryOp op))))
          ts) ∧
    convert [Token.number 2, Token.binaryOp Op.pow, Token.number 3,
             Token.binaryOp Op.pow, Token.number 2] =
      .ok [Token.number 2, Token.number 3, Token.number 2,
           Token.binaryOp Op.pow, Token.binaryOp Op.pow] := by
  have hpop : ∀ (pa : PrecAssoc) (stack out : List Token),
      popLoop pa out stack =
        (out ++ stack.takeWhile (shouldPop pa),
         stack.dropWhile (shouldPop pa)) := by
    intro pa stack
    induction stack with
    | nil => intro out; simp [popLoop]
    | cons top rest ih =>
      intro out
      rw [popLoop, List.takeWhile_cons, List.dropWhile_cons]
      by_cases h : shouldPop pa top
      · rw [if_pos h, h, ih]; simp
      · rw [if_neg h]
        simp [h]
  refine ⟨fun pa out stack => hpop pa stack out, ?_, ?_, by decide⟩
  · intro pa top
    unfold shouldPop
    rcases pa with ⟨p, a⟩
    cases a <;> simp [decide_eq_true_iff]
  · intro ts op out stack
    rw [convertLoop, hpop]

/-- **C7** (the validator accepts the empty postfix expression): the
converter returns `Ok` on the empty token stream — and on `"()"`-style
inputs, which also produce an empty output — even though the empty
postfix sequence leaves zero values, not exactly one, on the abstract
evaluation stack (`verify_rpn`'s final check only rejects balances
strictly greater than one). The spec instead demands `NotEnoughOperands`
for empty input. -/
theorem c7_empty_rpn_accepted :
    convert [] = .ok [] ∧
    convert [Token.lparen, Token.rparen] = .ok [] ∧
    simulateSizes [] 0 = some 0 ∧
    (0 : Nat) ≠ 1 ∧
    verifyRpn [] = .ok () :=
  ⟨rfl, rfl, rfl, by decide, rfl⟩

/-- **C4** (counterexample): `Executable::new` makes the *whole* mapping
RWX with `protect_rwx()` before splitting the code region off its tail,
so the code region is readable, writable *and* executable when the code
bytes are copied in, and it stays RWX — there is no transition to RX
anywhere in `executable.rs`. This contradicts the claimed
write-while-RW / execute-while-RX discipline. -/
theorem c4_counterexample :
    (Executable.new 10 [] []).map (fun p => (p.1.code, p.2)) =
      some (some ⟨10, Prot.rwx⟩, Prot.rwx) ∧
    Prot.rwx.isWritable = true ∧
    Prot.rwx.isExecutable = true :=
  ⟨rfl, rfl, rfl⟩

/-- **C4** (amended): after `Executable::new`, the code region exists,
reports `is_executable()`, and its protection is RWX — simultaneously
writable and executable — from before the code bytes are written through
steady state; the bytes are copied while the region is RWX (never RW),
and no transition to RX ever happens. -/
theorem c4_code_region_rwx (codeLen : Nat) (integ : List Nat)
    (vm : List String) :
    ∃ e : Executable,
      Executable.new codeLen integ vm = some (e, Prot.rwx) ∧
      e.code = some ⟨codeLen, Prot.rwx⟩ ∧
      (e.code.map fun c => c.protect.isExecutable) = some true ∧
      (e.code.map fun c => c.protect.isWritable) = some true := by
  have hlt : ¬ (pageAlignedSize (EVAL_STACK_SIZE + codeLen)) < codeLen := by
    unfold pageAlignedSize EVAL_STACK_SIZE; omega
  simp only [Executable.new, MmapBuf.new, MmapBuf.protectRwx, MmapBuf.splitEnd]
  rw [if_neg hlt]
  exact ⟨_, rfl, rfl, rfl, rfl⟩

set_option maxRecDepth 8000 in
/-- Witness for `c5_literal_bounds`: the hypotheses hold for the concrete
literal `9223372036854775808 = 2^63`, and the theorem applies. -/
theorem c5_literal_bounds_witness :
    ("9223372036854775808".data ≠ [] ∧
      (∀ c ∈ "9223372036854775808".data, c ∈ digitChars) ∧
      i64Max < (digitsToNat 10 "9223372036854775808".data : Int)) ∧
    tokenize Tokenizer.new ⟨"9223372036854775808".data⟩ =
      .error .integerParseError :=
  ⟨⟨by decide, by decide, by decide⟩,
   c5_literal_bounds.2 Tokenizer.new "9223372036854775808".data
     (by decide) (by decide) (by decide)⟩

/-- An odd integer never wraps to zero. -/
theorem wrap64_ne_zero_of_odd (p : Int) (h : Odd p) : wrap64 p ≠ 0 := by
  intro hz
  have h1 : p % 2 ^ 64 = 0 := by
    have h2 := wrap64_emod p
    rw [hz] at h2
    omega
  have h2 : (2 : Int) ∣ p :=
    dvd_trans (by norm_num) (Int.dvd_of_emod_eq_zero h1)
  obtain ⟨m, hm⟩ := h2
  obtain ⟨k, hk⟩ := h
  omega

/-- **C10** (counterexample): the claim's example says `pow(2, -1)` is not
0. It is 0: `(-1) as u32 = 2^32 - 1`, and `2 ^ (2^32 - 1)` is divisible
by `2^64` (the exponent far exceeds 64), so the wrapped result is exactly
0. -/
theorem c10_counterexample : powFn 2 (-1) = 0 := by
  have htoU32 : toU32 (-1) = 4294967295 := by decide
  have hdvd : ((2 : Int) ^ 64) ∣ 2 ^ 4294967295 :=
    pow_dvd_pow 2 (by norm_num)
  have hmod : ((2 : Int) ^ 4294967295) % 2 ^ 64 = 0 :=
    Int.emod_eq_zero_of_dvd hdvd
  unfold powFn
  rw [htoU32]
  have := wrap64_congr (x := (2 : Int) ^ 4294967295) (y := 0)
    (by rw [hmod]; rfl)
  rw [this]
  decide

/-- **C10** (amended): `builtins::pow` computes `a.wrapping_pow(b as u32)`:
a negative exponent `b ∈ [-2^32, 0)` behaves as the large positive
exponent `b + 2^32 = b mod 2^32`, the result depends on the base only
modulo `2^64` (base multiplication wraps), and the result is always in
the `i64` range. For an odd base the result of a negative exponent is
nonzero (e.g. `pow(3, -1) ≠ 0`), but for even bases it can be 0 — the
claim's example `pow(2, -1)` is 0, not nonzero. -/
theorem c10_pow_semantics :
    (∀ a b : Int, -(2 ^ 32) ≤ b → b < 0 →
      powFn a b = wrap64 (a ^ (b + 2 ^ 32).toNat)) ∧
    (∀ a b : Int, powFn (wrap64 a) b = powFn a b) ∧
    (∀ a b : Int, isI64 (powFn a b)) ∧
    powFn 3 (-1) ≠ 0 := by
  refine ⟨?_, ?_, ?_, ?_⟩
  · intro a b h1 h2
    unfold powFn toU32
    congr 2
    have : b % (2 ^ 32 : Int) = b + 2 ^ 32 := by omega
    rw [this]
  · intro a b
    unfold powFn
    have hm : Int.ModEq (2 ^ 64) (wrap64 a) a := wrap64_emod a
    exact wrap64_congr (hm.pow (toU32 b))
  · intro a b; exact wrap64_isI64 _
  · intro heq
    unfold powFn at heq
    exact wrap64_ne_zero_of_odd _ (Odd.pow (by decide)) heq

/-- Witness for `c10_pow_semantics`: instantiated at `a = 2, b = -1`
(discharging the negative-exponent hypotheses) and at `a = 2^64 + 5,
b = 3` for base wrapping. -/
theorem c10_pow_semantics_witness :
    (-(2 ^ 32) ≤ (-1 : Int) ∧ (-1 : Int) < 0 ∧
      powFn 2 (-1) = wrap64 (2 ^ ((-1 : Int) + 2 ^ 32).toNat)) ∧
    powFn (wrap64 (2 ^ 64 + 5)) 3 = powFn (2 ^ 64 + 5) 3 :=
  ⟨⟨by decide, by decide, c10_pow_semantics.1 2 (-1) (by decide) (by decide)⟩,
   c10_pow_semantics.2.1 (2 ^ 64 + 5) 3⟩

/-- The hashed sub-sequence of an emission list. -/
def hashedEmits (es : List Emit) : List Emit := es.filter fun e => e.2

theorem hashedEmits_append (a b : List Emit) :
    hashedEmits (a ++ b) = hashedEmits a ++ hashedEmits b := by
  unfold hashedEmits; simp

theorem hashedBytes_eq_of_hashedEmits {a b : List Emit}
    (h : hashedEmits a = hashedEmits b) : hashedBytes a = hashedBytes b := by
  unfold hashedBytes
  unfold hashedEmits at h
  rw [h]

/-- Per token, the hashed part of the emitted code and the updated catalog
do not depend on the helper addresses. -/
theorem compileToken_hashed_addr_free (a b a' b' : Int) (vm : List String)
    (t : Token) :
    (compileToken a b vm t).map (fun r => (hashedEmits r.1, r.2)) =
      (compileToken a' b' vm t).map (fun r => (hashedEmits r.1, r.2)) := by
  cases t <;> try rfl
  case binaryOp op => cases op <;> rfl
  case unaryOp op => cases op <;> rfl

/-- Over the whole token loop, the hashed emission stream and the catalog
do not depend on the helper addresses. -/
theorem compileLoop_hashed_addr_free (a b a' b' : Int) :
    ∀ (ts : List Token) (vm : List String),
    (compileLoop a b vm ts).map (fun r => (hashedEmits r.1, r.2)) =
      (compileLoop a' b' vm ts).map (fun r => (hashedEmits r.1, r.2)) := by
  intro ts
  induction ts with
  | nil => intro vm; rfl
  | cons t ts ih =>
    intro vm
    have htok := compileToken_hashed_addr_free a b a' b' vm t
    rw [compileLoop, compileLoop]
    cases h1 : compileToken a b vm t with
    | error e =>
      cases h1' : compileToken a' b' vm t with
      | error e' =>
        rw [h1, h1'] at htok
        simp only [Except.map] at htok
        cases htok
        rfl
      | ok r' => rw [h1, h1'] at htok; simp [Except.map] at htok
    | ok r =>
      cases h1' : compileToken a' b' vm t with
      | error e' => rw [h1, h1'] at htok; simp [Except.map] at htok
      | ok r' =>
        rw [h1, h1'] at htok
        simp only [Except.map, Except.ok.injEq, Prod.mk.injEq] at htok
        obtain ⟨hes, hvm⟩ := htok
        dsimp only
        have hrec := ih r.2
        have hvm2 : compileLoop a' b' r.2 ts = compileLoop a' b' r'.2 ts := by
          rw [hvm]
        rw [hvm2] at hrec
        cases h2 : compileLoop a b r.2 ts with
        | error e2 =>
          cases h2' : compileLoop a' b' r'.2 ts with
          | error e2' =>
            rw [h2] at hrec; rw [h2'] at hrec
            simp only [Except.map] at hrec
            cases hrec
            rfl
          | ok r2' => rw [h2, h2'] at hrec; simp [Except.map] at hrec
        | ok r2 =>
          cases h2' : compileLoop a' b' r'.2 ts with
          | error e2' => rw [h2, h2'] at hrec; simp [Except.map] at hrec
          | ok r2' =>
            rw [h2, h2'] at hrec
            simp only [Except.map, Except.ok.injEq, Prod.mk.injEq] at hrec
            obtain ⟨hes2, hvm2⟩ := hrec
            simp only [Except.map, Except.ok.injEq, Prod.mk.injEq]
            refine ⟨?_, hvm2⟩
            rw [hashedEmits_append, hashedEmits_append, hes, hes2]

/-- **C3** (amended): the SHA-256 input stream accumulated during
compilation — hence the 32-byte integrity digest — is a pure function of
the postfix token sequence: it is identical for any two helper-address
pairs, so two compilations of the same source (under ASLR or not) yield
the same digest. What is excluded from the hash is the *entire* 10-byte
`mov RAX, imm64` instruction of each native-call sequence — its REX
prefix and opcode byte as well as the 8-byte address immediate — and
every byte emitted inside a `with_integrity!` block is included. -/
theorem c3_integrity_address_independent :
    (∀ (rpn : List Token) (a b a' b' : Int),
      integrityInput a b rpn = integrityInput a' b' rpn) ∧
    (∀ (r : Reg64) (imm : Int),
      (encode (Instr.movRI r imm)).length = 10 ∧
      (imm64Bytes imm).length = 8) := by
  constructor
  · intro rpn a b a' b'
    unfold integrityInput compile
    have h := compileLoop_hashed_addr_free a b a' b' rpn []
    cases h1 : compileLoop a b [] rpn with
    | error e =>
      cases h1' : compileLoop a' b' [] rpn with
      | error e' => rfl
      | ok r' => rw [h1, h1'] at h; simp [Except.map] at h
    | ok r =>
      cases h1' : compileLoop a' b' [] rpn with
      | error e' => rw [h1, h1'] at h; simp [Except.map] at h
      | ok r' =>
        rw [h1, h1'] at h
        simp only [Except.map, Except.ok.injEq, Prod.mk.injEq] at h
        obtain ⟨hes, _⟩ := h
        simp only [Option.some.injEq]
        apply hashedBytes_eq_of_hashedEmits
        simp only [hashedEmits_append, hes]
  · intro r imm
    constructor
    · simp [encode, imm64Bytes, leBytes]
    · simp [imm64Bytes, leBytes]

/-- **C3** (counterexample): the claim says only the 8-byte address
immediate is excluded from the hash while every other emitted byte is
included; in the code the `with_integrity!` blocks skip the whole
`codegen.mov(Reg(Rax), Imm64(func))` emission, so the REX prefix and
opcode byte of that instruction are excluded too. For the postfix
expression `1 !` the two streams differ (the claim's version keeps two
extra bytes per native call). -/
theorem c3_counterexample :
    (compile 100 200 [Token.number 1, Token.unaryOp Op.fact]).toOption.map
        (fun r => hashedBytesImmOnlyExcluded r.1) ≠
      integrityInput 100 200 [Token.number 1, Token.unaryOp Op.fact] := by
  decide

theorem indexOf?_none_iff_not_mem {a : String} {l : List String} :
    l.indexOf? a = none ↔ a ∉ l := by
  rw [List.indexOf?_eq_none_iff]
  constructor
  · intro h hmem
    exact absurd (by simp : (a == a) = true) (h a hmem)
  · intro h x hx
    simp only [beq_iff_eq]
    intro heq
    exact h (heq ▸ hx)

theorem contains_iff_mem {a : String} {l : List String} :
    l.contains a = true ↔ a ∈ l := by
  rw [List.contains_iff_exists_mem_beq]
  constructor
  · rintro ⟨x, hx, hbeq⟩
    have hax : a = x := by simpa using hbeq
    rwa [← hax] at hx
  · intro h; exact ⟨a, h, by simp⟩

/-- Entries whose name is not in the catalog do not touch the variables
area, so the area fold ignores them. -/
theorem prepareVars_area_filter (catalog : List String)
    (input : List (String × Int)) (area : List Int) :
    input.foldl
      (fun area p =>
        match catalog.indexOf? p.1 with
        | some off => area.set off p.2
        | none => area) area =
    (input.filter fun p => catalog.contains p.1).foldl
      (fun area p =>
        match catalog.indexOf? p.1 with
        | some off => area.set off p.2
        | none => area) area := by
  induction input generalizing area with
  | nil => rfl
  | cons p input ih =>
    rw [List.foldl_cons, List.filter_cons]
    by_cases hq : catalog.contains p.1 = true
    · rw [if_pos hq, List.foldl_cons]
      exact ih _
    · rw [if_neg hq]
      have hnone : catalog.indexOf? p.1 = none := by
        rw [indexOf?_none_iff_not_mem]
        intro hmem
        exact hq (contains_iff_mem.mpr hmem)
      rw [hnone]
      exact ih area

/-- `prepareVars` only sees the input entries whose names are in the
catalog: the rest are skipped with a diagnostic and change nothing. -/
theorem prepareVars_filter (catalog : List String)
    (input : List (String × Int)) :
    prepareVars catalog input =
      prepareVars catalog (input.filter fun p => catalog.contains p.1) := by
  simp only [prepareVars]
  rw [← prepareVars_area_filter]
  rw [List.filter_filter]
  have : (fun (p : String × Int) =>
      catalog.contains p.1 && catalog.contains p.1) =
      fun p => catalog.contains p.1 := by
    funext p; exact Bool.and_self _
  rw [this]

/-- The error behaviour of `prepareVars`: it fails exactly when some
catalog name is missing from the input, and the only error it produces is
`UnititializedVariable`. -/
theorem prepareVars_spec (catalog : List String)
    (input : List (String × Int)) :
    ((∃ name, prepareVars catalog input =
        .error (.unititializedVariable name)) ↔
      ∃ name ∈ catalog, ∀ p ∈ input, p.1 ≠ name) ∧
    (∀ err, prepareVars catalog input = .error err →
      ∃ name, err = .unititializedVariable name) := by
  simp only [prepareVars]
  have hmem : ∀ name, name ∈ catalog →
      (((input.filter fun p => catalog.contains p.1).map Prod.fst).contains
          name = true ↔ ∃ p ∈ input, p.1 = name) := by
    intro name hcat
    rw [contains_iff_mem]
    simp only [List.mem_map, List.mem_filter]
    constructor
    · rintro ⟨p, ⟨hp, _⟩, hfst⟩
      exact ⟨p, hp, hfst⟩
    · rintro ⟨p, hp, hfst⟩
      exact ⟨p, ⟨hp, by rw [hfst]; exact contains_iff_mem.mpr hcat⟩, hfst⟩
  cases hf : catalog.find?
      (fun name =>
        ! ((input.filter fun p => catalog.contains p.1).map Prod.fst).contains
            name) with
  | none =>
    constructor
    · constructor
      · rintro ⟨name, hname⟩
        cases hname
      · rintro ⟨name, hncat, hmiss⟩
        have := List.find?_eq_none.mp hf name hncat
        rw [Bool.not_eq_true', Bool.not_eq_false] at this
        obtain ⟨p, hp, hfst⟩ := (hmem name hncat).mp this
        exact absurd hfst (hmiss p hp)
    · intro err herr
      cases herr
  | some n =>
    have hpred := List.find?_some hf
    have hncat := List.mem_of_find?_eq_some hf
    rw [Bool.not_eq_true'] at hpred
    constructor
    · constructor
      · rintro ⟨name, hname⟩
        refine ⟨n, hncat, fun p hp heq => ?_⟩
        have : ∃ q ∈ input, q.1 = n := ⟨p, hp, heq⟩
        rw [← hmem n hncat] at this
        rw [this] at hpred
        cases hpred
      · intro _
        exact ⟨n, rfl⟩
    · intro err herr
      cases herr
      exact ⟨n, rfl⟩

/-- **C8**: for an executable whose code region exists and is executable
and whose eval-stack region exists (as `Executable::new` always produces),
`run` fails with `UnititializedVariable` exactly when some catalog name is
absent from the input mapping; `UnititializedVariable` is the only
possible error; input entries whose names are not in the catalog are
skipped (diagnostic only) and never cause an error or affect the result;
and on any error the native code is not invoked (the outcome is the same
for every native function — `run` takes `&self`, so the executable itself
is unchanged by construction). -/
theorem c8_run_uninitialized_variable (e : Executable) (cb sb : MmapBuf)
    (native : List Int → Option Int) (input : List (String × Int))
    (hcode : e.code = some cb)
    (hexec : cb.protect.isExecutable = true)
    (hstack : e.evalStack = some sb) :
    ((∃ name, e.run native input = .error (.unititializedVariable name)) ↔
      ∃ name ∈ e.variablesMap, ∀ p ∈ input, p.1 ≠ name) ∧
    (∀ err, e.run native input = .error err →
      ∃ name, err = .unititializedVariable name) ∧
    (e.run native input =
      e.run native (input.filter fun p => e.variablesMap.contains p.1)) ∧
    (∀ err, e.run native input = .error err →
      ∀ native', e.run native' input = .error err) := by
  have hrun : ∀ (nf : List Int → Option Int) (inp : List (String × Int)),
      e.run nf inp =
        match prepareVars e.variablesMap inp with
        | .error err => .error err
        | .ok area => .ok (nf area) := by
    intro nf inp
    unfold Executable.run
    rw [hcode, hstack]
    simp [hexec]
  obtain ⟨hiff, honly⟩ := prepareVars_spec e.variablesMap input
  refine ⟨?_, ?_, ?_, ?_⟩
  · rw [← hiff]
    constructor
    · rintro ⟨name, hname⟩
      rw [hrun] at hname
      refine ⟨name, ?_⟩
      cases hp : prepareVars e.variablesMap input with
      | error err => rw [hp] at hname; cases hname; rfl
      | ok area => rw [hp] at hname; cases hname
    · rintro ⟨name, hname⟩
      refine ⟨name, ?_⟩
      rw [hrun, hname]
  · intro err herr
    rw [hrun] at herr
    cases hp : prepareVars e.variablesMap input with
    | error err' =>
      rw [hp] at herr
      cases herr
      exact honly _ hp
    | ok area => rw [hp] at herr; cases herr
  · rw [hrun, hrun, prepareVars_filter]
  · intro err herr native'
    rw [hrun] at herr
    rw [hrun]
    cases hp : prepareVars e.variablesMap input with
    | error err' =>
      rw [hp] at herr
      exact herr
    | ok area =>
      rw [hp] at herr
      cases herr

/-- Witness for `c8_run_uninitialized_variable`: a concrete executable
with catalog `["x", "y"]`, run with `{"x" ↦ 3, "z" ↦ 5}`: the hypotheses
hold, the run fails with `UnititializedVariable` (the catalog name `"y"`
is missing; the unknown `"z"` is ignored), and the concrete evaluation
agrees. -/
theorem c8_run_uninitialized_variable_witness :
    ((⟨some ⟨10, Prot.rwx⟩, some ⟨16384, Prot.rwx⟩, ["x", "y"], []⟩ :
        Executable).code = some ⟨10, Prot.rwx⟩ ∧
      (⟨10, Prot.rwx⟩ : MmapBuf).protect.isExecutable = true ∧
      (⟨some ⟨10, Prot.rwx⟩, some ⟨16384, Prot.rwx⟩, ["x", "y"], []⟩ :
        Executable).evalStack = some ⟨16384, Prot.rwx⟩) ∧
    (⟨some ⟨10, Prot.rwx⟩, some ⟨16384, Prot.rwx⟩, ["x", "y"], []⟩ :
        Executable).run (fun _ => some 0) [("x", 3), ("z", 5)] =
      .error (.unititializedVariable "y") ∧
    ((∃ name,
        (⟨some ⟨10, Prot.rwx⟩, some ⟨16384, Prot.rwx⟩, ["x", "y"], []⟩ :
          Executable).run (fun _ => some 0) [("x", 3), ("z", 5)] =
          .error (.unititializedVariable name)) ↔
      ∃ name ∈ ["x", "y"], ∀ p ∈ [("x", (3 : Int)), ("z", 5)], p.1 ≠ name) :=
  ⟨⟨rfl, rfl, rfl⟩, by decide,
   (c8_run_uninitialized_variable
     ⟨some ⟨10, Prot.rwx⟩, some ⟨16384, Prot.rwx⟩, ["x", "y"], []⟩
     ⟨10, Prot.rwx⟩ ⟨16384, Prot.rwx⟩ (fun _ => some 0)
     [("x", 3), ("z", 5)] rfl rfl rfl).1⟩

/-! ## Infrastructure for the JIT/reference equivalence (C1) -/

theorem natAbs_tmod (a b : Int) : (a.tmod b).natAbs = a.natAbs % b.natAbs := by
  cases a <;> cases b <;>
    first
      | rfl
      | (show ((-(Int.ofNat _)).natAbs = _); rw [Int.natAbs_neg]; rfl)

theorem isI64_tmod {n d : Int} (hd : isI64 d) (hd0 : d ≠ 0) :
    isI64 (Int.tmod n d) := by
  have h1 := natAbs_tmod n d
  have h2 : d.natAbs ≤ 2 ^ 63 := by
    unfold isI64 at hd
    omega
  have h3 : (Int.tmod n d).natAbs < d.natAbs :=
    h1 ▸ Nat.mod_lt _ (by omega)
  unfold isI64
  omega

/-- For `i64` operands with a nonzero divisor, the truncated quotient
overflows the signed 64-bit range exactly for `i64::MIN / -1` (where it
is `2^63`). -/
theorem tdiv_range {a b : Int} (ha : isI64 a) (hb : isI64 b) (hb0 : b ≠ 0) :
    ((Int.tdiv a b < -(2 ^ 63) ∨ 2 ^ 63 ≤ Int.tdiv a b) ↔
      (a = -(2 ^ 63) ∧ b = -1)) := by
  have habs : (Int.tdiv a b).natAbs = a.natAbs / b.natAbs := Int.natAbs_tdiv a b
  have haa : a.natAbs ≤ 2 ^ 63 := by unfold isI64 at ha; omega
  have hba : 1 ≤ b.natAbs := by unfold isI64 at hb; omega
  have hq : (Int.tdiv a b).natAbs ≤ 2 ^ 63 := by
    rw [habs]
    calc a.natAbs / b.natAbs ≤ a.natAbs := Nat.div_le_self _ _
      _ ≤ 2 ^ 63 := haa
  constructor
  · intro hout
    have hq2 : Int.tdiv a b = 2 ^ 63 := by omega
    have hqa : a.natAbs / b.natAbs = 2 ^ 63 := by
      rw [← habs, hq2]
      rfl
    have hle : a.natAbs / b.natAbs ≤ a.natAbs := Nat.div_le_self _ _
    have hamax : a.natAbs = 2 ^ 63 ∧ b.natAbs = 1 := by
      constructor
      · omega
      · by_contra hgt
        have h2b : 2 ≤ b.natAbs := by omega
        have hh1 : a.natAbs / b.natAbs ≤ a.natAbs / 2 :=
          Nat.div_le_div_left h2b (by omega)
        have hh2 : a.natAbs / 2 ≤ 2 ^ 63 / 2 :=
          Nat.div_le_div_right haa
        omega
    have haval : a = -(2 ^ 63) := by
      unfold isI64 at ha
      omega
    have hbval : b = 1 ∨ b = -1 := by
      unfold isI64 at hb
      omega
    rcases hbval with hb1 | hb1
    · rw [haval, hb1] at hq2
      rw [show Int.tdiv (-(2 ^ 63)) 1 = -(2 ^ 63) from by decide] at hq2
      omega
    · exact ⟨haval, hb1⟩
  · rintro ⟨ha1, hb1⟩
    rw [ha1, hb1]
    rw [show Int.tdiv (-(2 ^ 63)) (-1) = 2 ^ 63 from by decide]
    omega

/-- The signed value represented by RDX:RAX after `cqo` is just RAX. -/
theorem cqo_value {a : Int} (ha : isI64 a) :
    (if a < 0 then (-1 : Int) else 0) * 2 ^ 64 + a % 2 ^ 64 = a := by
  unfold isI64 at ha
  split <;> omega

/-- The simulation invariant between a reference evaluation stack `st`
(top at the head) and a machine state: `EVAL_STACK` (R14) points to the
next free slot `8 * |st|` (the eval area starts at address 0), every
register holds an `i64` value, slot `j` of the eval area holds the `j`-th
value from the bottom of `st`, and all stack values are `i64`. -/
def MachInv (st : List Int) (m : Machine) : Prop :=
  m.regs EVAL_STACK = 8 * st.length ∧
  (∀ r, isI64 (m.regs r)) ∧
  (∀ j : Nat, j < st.length →
    m.mem (8 * (j : Int)) = st.getD (st.length - 1 - j) 0) ∧
  (∀ x ∈ st, isI64 x)

theorem execInstrs_append (pA fA : Int) (l1 l2 : List Instr) (m : Machine) :
    execInstrs pA fA (l1 ++ l2) m =
      match execInstrs pA fA l1 m with
      | none => none
      | some m' => execInstrs pA fA l2 m' := by
  induction l1 generalizing m with
  | nil => rfl
  | cons i l1 ih =>
    rw [List.cons_append, execInstrs, execInstrs]
    cases execInstr pA fA i m with
    | none => rfl
    | some m' => exact ih m'

theorem setReg_regs (m : Machine) (r : Reg64) (v : Int) (r' : Reg64) :
    (setReg m r v).regs r' = if r' = r then v else m.regs r' := rfl

theorem setReg_mem (m : Machine) (r : Reg64) (v : Int) :
    (setReg m r v).mem = m.mem := rfl

theorem setReg_mstack (m : Machine) (r : Reg64) (v : Int) :
    (setReg m r v).mstack = m.mstack := rfl

theorem setMem_regs (m : Machine) (a v : Int) :
    (setMem m a v).regs = m.regs := rfl

theorem setMem_mem (m : Machine) (a v a' : Int) :
    (setMem m a v).mem a' = if a' = a then v else m.mem a' := rfl

theorem setMem_mstack (m : Machine) (a v : Int) :
    (setMem m a v).mstack = m.mstack := rfl

theorem execInstrs_cons_some {pA fA : Int} {i : Instr} {is : List Instr}
    {m m' : Machine} (h : execInstr pA fA i m = some m') :
    execInstrs pA fA (i :: is) m = execInstrs pA fA is m' := by
  rw [execInstrs, h]

theorem execInstrs_nil (pA fA : Int) (m : Machine) :
    execInstrs pA fA [] m = some m := rfl

/-- Executing `Compiler::pop_eval_stack` (`sub EVAL_STACK, 8` then
`mov r, [EVAL_STACK]`) pops the top of the reference stack into `r`. -/
theorem exec_popEval (pA fA : Int) (r : Reg64) (hr : r ≠ EVAL_STACK)
    (v : Int) (rest : List Int) (m : Machine)
    (hinv : MachInv (v :: rest) m) :
    ∃ m2,
      execInstrs pA fA [.subRI EVAL_STACK 8, .movRM r EVAL_STACK 0] m =
        some m2 ∧
      MachInv rest m2 ∧ m2.regs r = v ∧ m2.mem = m.mem ∧
      m2.mstack = m.mstack ∧
      (∀ r', r' ≠ r → r' ≠ EVAL_STACK → m2.regs r' = m.regs r') := by
  obtain ⟨hes, hregs, hmem, hvals⟩ := hinv
  have hlen : (v :: rest).length = rest.length + 1 := rfl
  rw [hlen] at hes
  have hesI : isI64 (m.regs EVAL_STACK) := hregs EVAL_STACK
  rw [hes] at hesI
  have hesI' : 8 * ((rest.length : Int) + 1) < 2 ^ 63 := hesI.2
  have hsub : wrap64 (m.regs EVAL_STACK - sext32 8) = 8 * rest.length := by
    rw [hes, sext32_eight]
    rw [show ((8 : Int) * ((rest.length + 1 : Nat) : Int) - 8) =
      8 * rest.length by push_cast; ring]
    apply wrap64_eq_self
    unfold isI64
    push_cast at hesI' ⊢
    omega
  have h1 : execInstr pA fA (Instr.subRI EVAL_STACK 8) m =
      some (setReg m EVAL_STACK (8 * rest.length)) := by
    show some (setReg m EVAL_STACK (wrap64 (m.regs EVAL_STACK - sext32 8))) = _
    rw [hsub]
  have hm1es : (setReg m EVAL_STACK (8 * rest.length)).regs EVAL_STACK =
      8 * rest.length := rfl
  have hread : m.mem (wrap64 (8 * (rest.length : Int) + sext32 0)) = v := by
    have h0 : wrap64 (8 * (rest.length : Int) + sext32 0) =
        8 * (rest.length : Int) := by
      rw [sext32_zero, add_zero]
      apply wrap64_eq_self
      unfold isI64
      push_cast at hesI' ⊢
      omega
    rw [h0]
    have h3 := hmem rest.length (by simp)
    rw [hlen] at h3
    simpa using h3
  have h2 : execInstr pA fA (Instr.movRM r EVAL_STACK 0)
      (setReg m EVAL_STACK (8 * rest.length)) =
      some (setReg (setReg m EVAL_STACK (8 * rest.length)) r v) := by
    show some (setReg _ r ((setReg m EVAL_STACK (8 * ↑rest.length)).mem
      (wrap64 ((setReg m EVAL_STACK (8 * ↑rest.length)).regs EVAL_STACK +
        sext32 0)))) = _
    rw [hm1es, setReg_mem, hread]
  refine ⟨setReg (setReg m EVAL_STACK (8 * rest.length)) r v,
    ?_, ?_, ?_, ?_, ?_, ?_⟩
  · rw [execInstrs_cons_some h1, execInstrs_cons_some h2, execInstrs_nil]
  · refine ⟨?_, ?_, ?_, fun x hx => hvals x (by simp [hx])⟩
    · rw [setReg_regs, if_neg (fun h => hr h.symm), hm1es]
    · intro r'
      rw [setReg_regs]
      split
      · exact hvals v (by simp)
      · rw [setReg_regs]
        split
        · unfold isI64
          push_cast at hesI' ⊢
          omega
        · exact hregs r'
    · intro j hj
      rw [setReg_mem, setReg_mem]
      have h3 := hmem j (by simp; omega)
      rw [hlen] at h3
      rw [h3]
      have : rest.length + 1 - 1 - j = rest.length - j := by omega
      rw [this]
      have hj1 : rest.length - j ≥ 1 := by omega
      show (v :: rest).getD (rest.length - j) 0 = _
      rw [show rest.length - j = (rest.length - 1 - j) + 1 by omega]
      rfl
  · rw [setReg_regs, if_pos rfl]
  · rw [setReg_mem, setReg_mem]
  · rw [setReg_mstack, setReg_mstack]
  · intro r' hr1 hr2
    rw [setReg_regs, if_neg hr1, setReg_regs, if_neg hr2]

/-- `MachInv` is unaffected by writing an `i64` value to a register other
than `EVAL_STACK`. -/
theorem MachInv_setReg {st : List Int} {m : Machine} (hinv : MachInv st m)
    {r : Reg64} (hr : r ≠ EVAL_STACK) {v : Int} (hv : isI64 v) :
    MachInv st (setReg m r v) := by
  obtain ⟨hes, hregs, hmem, hvals⟩ := hinv
  refine ⟨?_, ?_, ?_, hvals⟩
  · rw [setReg_regs, if_neg (fun h => hr h.symm)]
    exact hes
  · intro r'
    rw [setReg_regs]
    split
    · exact hv
    · exact hregs r'
  · intro j hj
    rw [setReg_mem]
    exact hmem j hj

/-- Executing `Compiler::push_eval_stack` for a register operand
(`mov [EVAL_STACK], r` then `add EVAL_STACK, 8`) pushes `r`'s value. -/
theorem exec_pushEvalReg (pA fA : Int) (r : Reg64)
    (st : List Int) (m : Machine) (hinv : MachInv st m)
    (hcap : st.length + 1 ≤ 2048) :
    ∃ m2,
      execInstrs pA fA [.movMR EVAL_STACK 0 r, .addRI EVAL_STACK 8] m =
        some m2 ∧
      MachInv (m.regs r :: st) m2 ∧ m2.mstack = m.mstack ∧
      (∀ r', r' ≠ EVAL_STACK → m2.regs r' = m.regs r') := by
  obtain ⟨hes, hregs, hmem, hvals⟩ := hinv
  have hesI : isI64 (m.regs EVAL_STACK) := hregs EVAL_STACK
  rw [hes] at hesI
  have haddr : wrap64 (m.regs EVAL_STACK + sext32 0) =
      8 * (st.length : Int) := by
    rw [hes, sext32_zero, add_zero]
    exact wrap64_eq_self hesI
  have h1 : execInstr pA fA (Instr.movMR EVAL_STACK 0 r) m =
      some (setMem m (8 * (st.length : Int)) (m.regs r)) := by
    show some (setMem m (wrap64 (m.regs EVAL_STACK + sext32 0)) (m.regs r)) = _
    rw [haddr]
  have hm1es : (setMem m (8 * (st.length : Int)) (m.regs r)).regs EVAL_STACK =
      8 * (st.length : Int) := by
    rw [setMem_regs]; exact hes
  have hbump : wrap64 ((setMem m (8 * (st.length : Int))
      (m.regs r)).regs EVAL_STACK + sext32 8) =
      8 * ((st.length + 1 : Nat) : Int) := by
    rw [hm1es, sext32_eight]
    rw [show (8 * (st.length : Int) + 8) = 8 * ((st.length + 1 : Nat) : Int)
      by push_cast; ring]
    apply wrap64_eq_self
    unfold isI64
    push_cast
    omega
  have h2 : execInstr pA fA (Instr.addRI EVAL_STACK 8)
      (setMem m (8 * (st.length : Int)) (m.regs r)) =
      some (setReg (setMem m (8 * (st.length : Int)) (m.regs r)) EVAL_STACK
        (8 * ((st.length + 1 : Nat) : Int))) := by
    show some (setReg _ EVAL_STACK (wrap64 (_ + sext32 8))) = _
    rw [hbump]
  refine ⟨setReg (setMem m (8 * (st.length : Int)) (m.regs r)) EVAL_STACK
    (8 * ((st.length + 1 : Nat) : Int)), ?_, ?_, ?_, ?_⟩
  · rw [execInstrs_cons_some h1, execInstrs_cons_some h2, execInstrs_nil]
  · refine ⟨?_, ?_, ?_, ?_⟩
    · rw [setReg_regs, if_pos rfl]
      simp
    · intro r'
      rw [setReg_regs]
      split
      · unfold isI64
        push_cast
        omega
      · rw [setMem_regs]
        exact hregs r'
    · intro j hj
      rw [setReg_mem, setMem_mem]
      simp only [List.length_cons] at hj
      by_cases hjk : j = st.length
      · rw [if_pos (by rw [hjk])]
        simp [hjk]
      · have hne : ¬ ((8 : Int) * (j : Int) = 8 * (st.length : Int)) := by
          omega
        rw [if_neg hne]
        have h3 := hmem j (by omega)
        rw [h3]
        simp only [List.length_cons]
        rw [show st.length + 1 - 1 - j = (st.length - 1 - j) + 1 by omega]
        rfl
    · intro x hx
      rcases List.mem_cons.mp hx with h | h
      · rw [h]; exact hregs r
      · exact hvals x h
  · rw [setReg_mstack, setMem_mstack]
  · intro r' hr'
    rw [setReg_regs, if_neg hr', setMem_regs]

/-- Executing `Compiler::push_eval_stack` for a 64-bit immediate:
materialize it in `SCRATCH_REG`, store, advance. -/
theorem exec_pushEvalImm (pA fA : Int) (n : Int) (hn : isI64 n)
    (st : List Int) (m : Machine) (hinv : MachInv st m)
    (hcap : st.length + 1 ≤ 2048) :
    ∃ m2,
      execInstrs pA fA
        [.movRI SCRATCH_REG n, .movMR EVAL_STACK 0 SCRATCH_REG,
         .addRI EVAL_STACK 8] m = some m2 ∧
      MachInv (n :: st) m2 ∧ m2.mstack = m.mstack := by
  have h1 : execInstr pA fA (Instr.movRI SCRATCH_REG n) m =
      some (setReg m SCRATCH_REG n) := by
    show some (setReg m SCRATCH_REG (wrap64 n)) = _
    rw [wrap64_eq_self hn]
  have hinv1 : MachInv st (setReg m SCRATCH_REG n) :=
    MachInv_setReg hinv (by decide) hn
  obtain ⟨m2, hexec, hinv2, hstk, _⟩ :=
    exec_pushEvalReg pA fA SCRATCH_REG st (setReg m SCRATCH_REG n) hinv1 hcap
  have hval : (setReg m SCRATCH_REG n).regs SCRATCH_REG = n := by
    rw [setReg_regs, if_pos rfl]
  rw [hval] at hinv2
  refine ⟨m2, ?_, hinv2, ?_⟩
  · rw [execInstrs_cons_some h1]
    exact hexec
  · rw [hstk, setReg_mstack]

theorem execInstrs_append_some {pA fA : Int} {l1 l2 : List Instr}
    {m m2 : Machine} (h : execInstrs pA fA l1 m = some m2) :
    execInstrs pA fA (l1 ++ l2) m = execInstrs pA fA l2 m2 := by
  rw [execInstrs_append, h]

theorem stackTail_inv {b a : Int} {rest : List Int} {m : Machine}
    (hinv : MachInv (b :: a :: rest) m) : isI64 b ∧ isI64 a := by
  obtain ⟨_, _, _, hvals⟩ := hinv
  exact ⟨hvals b (by simp), hvals a (by simp)⟩

/-- The generated code for `BinaryOp(Plus)`: pop right into ARG1, left
into ARG2, `add ARG1, ARG2`, push ARG1. -/
theorem exec_binop_plus (pA fA : Int) (b a : Int) (rest : List Int)
    (m : Machine) (hinv : MachInv (b :: a :: rest) m)
    (hcap : rest.length + 1 ≤ 2048) :
    ∃ m', execInstrs pA fA
        ([.subRI EVAL_STACK 8, .movRM ARG1 EVAL_STACK 0] ++
         ([.subRI EVAL_STACK 8, .movRM ARG2 EVAL_STACK 0] ++
          ([Instr.addRR ARG1 ARG2] ++
           [.movMR EVAL_STACK 0 ARG1, .addRI EVAL_STACK 8]))) m = some m' ∧
      MachInv (wrap64 (a + b) :: rest) m' ∧ m'.mstack = m.mstack := by
  obtain ⟨hb, ha⟩ := stackTail_inv hinv
  obtain ⟨m2, hex2, hinv2, hr2, _, hstk2, hpres2⟩ :=
    exec_popEval pA fA ARG1 (by decide) b (a :: rest) m hinv
  obtain ⟨m3, hex3, hinv3, hr3, _, hstk3, hpres3⟩ :=
    exec_popEval pA fA ARG2 (by decide) a rest m2 hinv2
  have hr8 : m3.regs ARG1 = b := by
    rw [hpres3 ARG1 (by decide) (by decide), hr2]
  have h4 : execInstr pA fA (Instr.addRR ARG1 ARG2) m3 =
      some (setReg m3 ARG1 (wrap64 (a + b))) := by
    show some (setReg m3 ARG1 (wrap64 (m3.regs ARG1 + m3.regs ARG2))) = _
    rw [hr8, hr3, Int.add_comm]
  have hinv4 : MachInv rest (setReg m3 ARG1 (wrap64 (a + b))) :=
    MachInv_setReg hinv3 (by decide) (wrap64_isI64 _)
  obtain ⟨m5, hex5, hinv5, hstk5, _⟩ :=
    exec_pushEvalReg pA fA ARG1 rest (setReg m3 ARG1 (wrap64 (a + b)))
      hinv4 hcap
  have hval : (setReg m3 ARG1 (wrap64 (a + b))).regs ARG1 = wrap64 (a + b) := by
    rw [setReg_regs, if_pos rfl]
  rw [hval] at hinv5
  refine ⟨m5, ?_, hinv5, ?_⟩
  · rw [execInstrs_append_some hex2, execInstrs_append_some hex3,
      execInstrs_append_some (show execInstrs pA fA [Instr.addRR ARG1 ARG2]
        m3 = some (setReg m3 ARG1 (wrap64 (a + b))) from by
          rw [execInstrs_cons_some h4, execInstrs_nil])]
    exact hex5
  · rw [hstk5, setReg_mstack, hstk3, hstk2]

/-- The generated code for `BinaryOp(Minus)`: `sub ARG2, ARG1` computes
left minus right. -/
theorem exec_binop_minus (pA fA : Int) (b a : Int) (rest : List Int)
    (m : Machine) (hinv : MachInv (b :: a :: rest) m)
    (hcap : rest.length + 1 ≤ 2048) :
    ∃ m', execInstrs pA fA
        ([.subRI EVAL_STACK 8, .movRM ARG1 EVAL_STACK 0] ++
         ([.subRI EVAL_STACK 8, .movRM ARG2 EVAL_STACK 0] ++
          ([Instr.subRR ARG2 ARG1] ++
           [.movMR EVAL_STACK 0 ARG2, .addRI EVAL_STACK 8]))) m = some m' ∧
      MachInv (wrap64 (a - b) :: rest) m' ∧ m'.mstack = m.mstack := by
  obtain ⟨m2, hex2, hinv2, hr2, _, hstk2, hpres2⟩ :=
    exec_popEval pA fA ARG1 (by decide) b (a :: rest) m hinv
  obtain ⟨m3, hex3, hinv3, hr3, _, hstk3, hpres3⟩ :=
    exec_popEval pA fA ARG2 (by decide) a rest m2 hinv2
  have hr8 : m3.regs ARG1 = b := by
    rw [hpres3 ARG1 (by decide) (by decide), hr2]
  have h4 : execInstr pA fA (Instr.subRR ARG2 ARG1) m3 =
      some (setReg m3 ARG2 (wrap64 (a - b))) := by
    show some (setReg m3 ARG2 (wrap64 (m3.regs ARG2 - m3.regs ARG1))) = _
    rw [hr8, hr3]
  have hinv4 : MachInv rest (setReg m3 ARG2 (wrap64 (a - b))) :=
    MachInv_setReg hinv3 (by decide) (wrap64_isI64 _)
  obtain ⟨m5, hex5, hinv5, hstk5, _⟩ :=
    exec_pushEvalReg pA fA ARG2 rest (setReg m3 ARG2 (wrap64 (a - b)))
      hinv4 hcap
  have hval : (setReg m3 ARG2 (wrap64 (a - b))).regs ARG2 = wrap64 (a - b) := by
    rw [setReg_regs, if_pos rfl]
  rw [hval] at hinv5
  refine ⟨m5, ?_, hinv5, ?_⟩
  · rw [execInstrs_append_some hex2, execInstrs_append_some hex3,
      execInstrs_append_some (show execInstrs pA fA [Instr.subRR ARG2 ARG1]
        m3 = some (setReg m3 ARG2 (wrap64 (a - b))) from by
          rw [execInstrs_cons_some h4, execInstrs_nil])]
    exact hex5
  · rw [hstk5, setReg_mstack, hstk3, hstk2]

theorem execInstrs_cons_none {pA fA : Int} {i : Instr} {is : List Instr}
    {m : Machine} (h : execInstr pA fA i m = none) :
    execInstrs pA fA (i :: is) m = none := by
  rw [execInstrs, h]

theorem isI64_mul_high {a b : Int} (ha : isI64 a) (hb : isI64 b) :
    isI64 (a * b / 2 ^ 64) := by
  have ha' : |a| ≤ 2 ^ 63 := abs_le.mpr ⟨ha.1, le_of_lt ha.2⟩
  have hb' : |b| ≤ 2 ^ 63 := abs_le.mpr ⟨hb.1, le_of_lt hb.2⟩
  have habs : |a * b| ≤ 2 ^ 126 := by
    rw [abs_mul]
    calc |a| * |b| ≤ 2 ^ 63 * 2 ^ 63 :=
          mul_le_mul ha' hb' (abs_nonneg b) (by positivity)
      _ = 2 ^ 126 := by norm_num
  have h1 : a * b ≤ 2 ^ 126 := le_of_abs_le habs
  have h2 : -(2 ^ 126) ≤ a * b := neg_le_of_abs_le habs
  have h3 : a * b / 2 ^ 64 ≤ 2 ^ 126 / 2 ^ 64 :=
    Int.ediv_le_ediv (by norm_num) h1
  have h4 : -(2 ^ 126) / 2 ^ 64 ≤ a * b / 2 ^ 64 :=
    Int.ediv_le_ediv (by norm_num) h2
  have h5 : ((2 : Int) ^ 126) / 2 ^ 64 = 2 ^ 62 := by
    rw [show ((2 : Int) ^ 126) = 2 ^ 62 * 2 ^ 64 from by ring]
    exact Int.mul_ediv_cancel _ (by norm_num)
  have h6 : (-(2 ^ 126) : Int) / 2 ^ 64 = -(2 ^ 62) := by
    rw [show (-(2 ^ 126) : Int) = -(2 ^ 62) * 2 ^ 64 from by ring]
    exact Int.mul_ediv_cancel _ (by norm_num)
  unfold isI64
  omega

/-- The generated code for `BinaryOp(Mult)`: `mov RAX, ARG1` then
`imul ARG2` leaves the wrapped product in RAX (and the signed high half
in RDX), which is then pushed. -/
theorem exec_binop_mult (pA fA : Int) (b a : Int) (rest : List Int)
    (m : Machine) (hinv : MachInv (b :: a :: rest) m)
    (hcap : rest.length + 1 ≤ 2048) :
    ∃ m', execInstrs pA fA
        ([.subRI EVAL_STACK 8, .movRM ARG1 EVAL_STACK 0] ++
         ([.subRI EVAL_STACK 8, .movRM ARG2 EVAL_STACK 0] ++
          ([.movRR .rax ARG1, .imulR ARG2] ++
           [.movMR EVAL_STACK 0 .rax, .addRI EVAL_STACK 8]))) m = some m' ∧
      MachInv (wrap64 (a * b) :: rest) m' ∧ m'.mstack = m.mstack := by
  obtain ⟨hb, ha⟩ := stackTail_inv hinv
  obtain ⟨m2, hex2, hinv2, hr2, _, hstk2, hpres2⟩ :=
    exec_popEval pA fA ARG1 (by decide) b (a :: rest) m hinv
  obtain ⟨m3, hex3, hinv3, hr3, _, hstk3, hpres3⟩ :=
    exec_popEval pA fA ARG2 (by decide) a rest m2 hinv2
  have hr8 : m3.regs ARG1 = b := by
    rw [hpres3 ARG1 (by decide) (by decide), hr2]
  have h4 : execInstr pA fA (Instr.movRR .rax ARG1) m3 =
      some (setReg m3 .rax b) := by
    show some (setReg m3 .rax (m3.regs ARG1)) = _
    rw [hr8]
  have hinv4 : MachInv rest (setReg m3 .rax b) :=
    MachInv_setReg hinv3 (by decide) hb
  have hrax4 : (setReg m3 .rax b).regs .rax = b := by
    rw [setReg_regs, if_pos rfl]
  have hr9' : (setReg m3 .rax b).regs ARG2 = a := by
    rw [setReg_regs, if_neg (by decide)]
    exact hr3
  have h5 : execInstr pA fA (Instr.imulR ARG2) (setReg m3 .rax b) =
      some (setReg (setReg (setReg m3 .rax b) .rax (wrap64 (b * a))) .rdx
        (b * a / 2 ^ 64)) := by
    show some (setReg (setReg (setReg m3 .rax b) .rax
      (wrap64 ((setReg m3 .rax b).regs .rax * (setReg m3 .rax b).regs ARG2)))
      .rdx ((setReg m3 .rax b).regs .rax * (setReg m3 .rax b).regs ARG2 /
        2 ^ 64)) = _
    rw [hrax4, hr9']
  have hinv5 : MachInv rest (setReg (setReg (setReg m3 .rax b) .rax
      (wrap64 (b * a))) .rdx (b * a / 2 ^ 64)) :=
    MachInv_setReg (MachInv_setReg hinv4 (by decide) (wrap64_isI64 _))
      (by decide) (isI64_mul_high hb ha)
  obtain ⟨m6, hex6, hinv6, hstk6, _⟩ :=
    exec_pushEvalReg pA fA .rax rest _ hinv5 hcap
  have hval : (setReg (setReg (setReg m3 .rax b) .rax (wrap64 (b * a))) .rdx
      (b * a / 2 ^ 64)).regs .rax = wrap64 (b * a) := by
    rw [setReg_regs, if_neg (by decide), setReg_regs, if_pos rfl]
  rw [hval] at hinv6
  rw [show wrap64 (b * a) = wrap64 (a * b) from by rw [Int.mul_comm]] at hinv6
  refine ⟨m6, ?_, hinv6, ?_⟩
  · rw [execInstrs_append_some hex2, execInstrs_append_some hex3,
      execInstrs_append_some (show execInstrs pA fA
        [Instr.movRR .rax ARG1, Instr.imulR ARG2] m3 = some _ from by
          rw [execInstrs_cons_some h4, execInstrs_cons_some h5,
            execInstrs_nil])]
    exact hex6
  · rw [hstk6, setReg_mstack, setReg_mstack, setReg_mstack, hstk3, hstk2]

/-- The generated code for `BinaryOp(Div)`: `mov RAX, ARG2`, `cqo`,
`idiv ARG1`, push RAX. The hardware faults (`none`) exactly when the
divisor is zero or the quotient overflows (`i64::MIN / -1`); otherwise
the truncated quotient is pushed. -/
theorem exec_binop_div (pA fA : Int) (b a : Int) (rest : List Int)
    (m : Machine) (hinv : MachInv (b :: a :: rest) m)
    (hcap : rest.length + 1 ≤ 2048) :
    (b = 0 ∨ (a = i64Min ∧ b = -1) →
      execInstrs pA fA
        ([.subRI EVAL_STACK 8, .movRM ARG1 EVAL_STACK 0] ++
         ([.subRI EVAL_STACK 8, .movRM ARG2 EVAL_STACK 0] ++
          ([.movRR .rax ARG2, .cqo, .idivR ARG1] ++
           [.movMR EVAL_STACK 0 .rax, .addRI EVAL_STACK 8]))) m = none) ∧
    (¬ (b = 0 ∨ (a = i64Min ∧ b = -1)) →
      ∃ m', execInstrs pA fA
        ([.subRI EVAL_STACK 8, .movRM ARG1 EVAL_STACK 0] ++
         ([.subRI EVAL_STACK 8, .movRM ARG2 EVAL_STACK 0] ++
          ([.movRR .rax ARG2, .cqo, .idivR ARG1] ++
           [.movMR EVAL_STACK 0 .rax, .addRI EVAL_STACK 8]))) m = some m' ∧
      MachInv (Int.tdiv a b :: rest) m' ∧ m'.mstack = m.mstack) := by
  obtain ⟨hb, ha⟩ := stackTail_inv hinv
  obtain ⟨m2, hex2, hinv2, hr2, _, hstk2, hpres2⟩ :=
    exec_popEval pA fA ARG1 (by decide) b (a :: rest) m hinv
  obtain ⟨m3, hex3, hinv3, hr3, _, hstk3, hpres3⟩ :=
    exec_popEval pA fA ARG2 (by decide) a rest m2 hinv2
  have hr8 : m3.regs ARG1 = b := by
    rw [hpres3 ARG1 (by decide) (by decide), hr2]
  have h4 : execInstr pA fA (Instr.movRR .rax ARG2) m3 =
      some (setReg m3 .rax a) := by
    show some (setReg m3 .rax (m3.regs ARG2)) = _
    rw [hr3]
  have hrax4 : (setReg m3 .rax a).regs .rax = a := by
    rw [setReg_regs, if_pos rfl]
  have h5 : execInstr pA fA Instr.cqo (setReg m3 .rax a) =
      some (setReg (setReg m3 .rax a) .rdx (if a < 0 then -1 else 0)) := by
    show some (setReg (setReg m3 .rax a) .rdx
      (if (setReg m3 .rax a).regs .rax < 0 then -1 else 0)) = _
    rw [hrax4]
  have hm5rax : (setReg (setReg m3 .rax a) .rdx
      (if a < 0 then -1 else 0)).regs .rax = a := by
    rw [setReg_regs, if_neg (by decide)]
    exact hrax4
  have hm5rdx : (setReg (setReg m3 .rax a) .rdx
      (if a < 0 then -1 else 0)).regs .rdx = (if a < 0 then -1 else 0) := by
    rw [setReg_regs, if_pos rfl]
  have hm5r8 : (setReg (setReg m3 .rax a) .rdx
      (if a < 0 then -1 else 0)).regs ARG1 = b := by
    rw [setReg_regs, if_neg (by decide), setReg_regs, if_neg (by decide)]
    exact hr8
  have hinv5 : MachInv rest (setReg (setReg m3 .rax a) .rdx
      (if a < 0 then -1 else 0)) :=
    MachInv_setReg (MachInv_setReg hinv3 (by decide) ha) (by decide)
      (by split <;> decide)
  have hn : (setReg (setReg m3 .rax a) .rdx
        (if a < 0 then -1 else 0)).regs .rdx * 2 ^ 64 +
      (setReg (setReg m3 .rax a) .rdx
        (if a < 0 then -1 else 0)).regs .rax % 2 ^ 64 = a := by
    rw [hm5rax, hm5rdx]
    exact cqo_value ha
  have hIdiv : execInstr pA fA (Instr.idivR ARG1)
      (setReg (setReg m3 .rax a) .rdx (if a < 0 then -1 else 0)) =
      if b = 0 then none
      else if Int.tdiv a b < -(2 ^ 63) ∨ 2 ^ 63 ≤ Int.tdiv a b then none
      else some (setReg (setReg (setReg (setReg m3 .rax a) .rdx
        (if a < 0 then -1 else 0)) .rax (Int.tdiv a b)) .rdx
        (Int.tmod a b)) := by
    show (if (setReg (setReg m3 .rax a) .rdx
        (if a < 0 then -1 else 0)).regs ARG1 = 0 then none
      else _) = _
    rw [hm5r8, hn]
  constructor
  · intro hbad
    rw [execInstrs_append_some hex2, execInstrs_append_some hex3]
    simp only [List.cons_append, List.nil_append]
    rw [execInstrs_cons_some h4, execInstrs_cons_some h5]
    apply execInstrs_cons_none
    rw [hIdiv]
    rcases hbad with hb0 | ⟨hamin, hbneg⟩
    · rw [if_pos hb0]
    · have hb0 : b ≠ 0 := by rw [hbneg]; decide
      rw [if_neg hb0]
      rw [if_pos ((tdiv_range ha hb hb0).mpr ⟨by
        rw [hamin]; rfl, hbneg⟩)]
  · intro hgood
    push_neg at hgood
    obtain ⟨hb0, hnotmin⟩ := hgood
    have hq : ¬ (Int.tdiv a b < -(2 ^ 63) ∨ 2 ^ 63 ≤ Int.tdiv a b) := by
      rw [tdiv_range ha hb hb0]
      intro ⟨h1, h2⟩
      exact hnotmin (by rw [h1]; rfl) h2
    have hqI : isI64 (Int.tdiv a b) := by
      unfold isI64
      push_neg at hq
      omega
    have hinv6 : MachInv rest (setReg (setReg (setReg (setReg m3 .rax a)
        .rdx (if a < 0 then -1 else 0)) .rax (Int.tdiv a b)) .rdx
        (Int.tmod a b)) :=
      MachInv_setReg (MachInv_setReg hinv5 (by decide) hqI) (by decide)
        (isI64_tmod hb hb0)
    obtain ⟨m7, hex7, hinv7, hstk7, _⟩ :=
      exec_pushEvalReg pA fA .rax rest _ hinv6 hcap
    have hval : (setReg (setReg (setReg (setReg m3 .rax a) .rdx
        (if a < 0 then -1 else 0)) .rax (Int.tdiv a b)) .rdx
        (Int.tmod a b)).regs .rax = Int.tdiv a b := by
      rw [setReg_regs, if_neg (by decide), setReg_regs, if_pos rfl]
    rw [hval] at hinv7
    refine ⟨m7, ?_, hinv7, ?_⟩
    · rw [execInstrs_append_some hex2, execInstrs_append_some hex3]
      simp only [List.cons_append, List.nil_append]
      rw [execInstrs_cons_some h4, execInstrs_cons_some h5,
        execInstrs_cons_some (show execInstr pA fA (Instr.idivR ARG1) _ =
          some _ from by rw [hIdiv, if_neg hb0, if_neg hq])]
      exact hex7
    · rw [hstk7, setReg_mstack, setReg_mstack, setReg_mstack, setReg_mstack,
        hstk3, hstk2]

theorem isI64_foldl_wrap (l : List Int) (z : Int) (hz : isI64 z) :
    isI64 (l.foldl (fun f i => wrap64 (f * (i + 1))) z) := by
  induction l generalizing z with
  | nil => exact hz
  | cons x l ih =>
    rw [List.foldl_cons]
    exact ih _ (wrap64_isI64 _)

theorem isI64_factorialFn (n : Int) : isI64 (factorialFn n) := by
  unfold factorialFn
  exact isI64_foldl_wrap _ 1 (by decide)

/-- The generated code for `UnaryOp(Plus)`: pop into ARG1 and push ARG1
back — a no-op on the eval stack. -/
theorem exec_unop_plus (pA fA : Int) (v : Int) (rest : List Int)
    (m : Machine) (hinv : MachInv (v :: rest) m)
    (hcap : rest.length + 1 ≤ 2048) :
    ∃ m', execInstrs pA fA
        ([.subRI EVAL_STACK 8, .movRM ARG1 EVAL_STACK 0] ++
         [.movMR EVAL_STACK 0 ARG1, .addRI EVAL_STACK 8]) m = some m' ∧
      MachInv (v :: rest) m' ∧ m'.mstack = m.mstack := by
  obtain ⟨m2, hex2, hinv2, hr2, _, hstk2, _⟩ :=
    exec_popEval pA fA ARG1 (by decide) v rest m hinv
  obtain ⟨m3, hex3, hinv3, hstk3, _⟩ :=
    exec_pushEvalReg pA fA ARG1 rest m2 hinv2 hcap
  rw [hr2] at hinv3
  exact ⟨m3, by rw [execInstrs_append_some hex2]; exact hex3, hinv3,
    by rw [hstk3, hstk2]⟩

/-- The generated code for `UnaryOp(Minus)`: pop into ARG1, `neg ARG1`,
push ARG1. -/
theorem exec_unop_minus (pA fA : Int) (v : Int) (rest : List Int)
    (m : Machine) (hinv : MachInv (v :: rest) m)
    (hcap : rest.length + 1 ≤ 2048) :
    ∃ m', execInstrs pA fA
        ([.subRI EVAL_STACK 8, .movRM ARG1 EVAL_STACK 0] ++
         ([Instr.negR ARG1] ++
          [.movMR EVAL_STACK 0 ARG1, .addRI EVAL_STACK 8])) m = some m' ∧
      MachInv (wrap64 (-v) :: rest) m' ∧ m'.mstack = m.mstack := by
  obtain ⟨m2, hex2, hinv2, hr2, _, hstk2, _⟩ :=
    exec_popEval pA fA ARG1 (by decide) v rest m hinv
  have h3 : execInstr pA fA (Instr.negR ARG1) m2 =
      some (setReg m2 ARG1 (wrap64 (-v))) := by
    show some (setReg m2 ARG1 (wrap64 (-m2.regs ARG1))) = _
    rw [hr2]
  have hinv3 : MachInv rest (setReg m2 ARG1 (wrap64 (-v))) :=
    MachInv_setReg hinv2 (by decide) (wrap64_isI64 _)
  obtain ⟨m4, hex4, hinv4, hstk4, _⟩ :=
    exec_pushEvalReg pA fA ARG1 rest _ hinv3 hcap
  have hval : (setReg m2 ARG1 (wrap64 (-v))).regs ARG1 = wrap64 (-v) := by
    rw [setReg_regs, if_pos rfl]
  rw [hval] at hinv4
  refine ⟨m4, ?_, hinv4, ?_⟩
  · rw [execInstrs_append_some hex2,
      execInstrs_append_some (show execInstrs pA fA [Instr.negR ARG1] m2 =
        some _ from by rw [execInstrs_cons_some h3, execInstrs_nil])]
    exact hex4
  · rw [hstk4, setReg_mstack, hstk2]

/-- The generated code for `UnaryOp(Fact)`: pop into ARG1, native call to
`factorial` with ARG1 in RDI, push the RAX result. -/
theorem exec_unop_fact (pA fA : Int) (hfA : isI64 fA) (hne : pA ≠ fA)
    (v : Int) (rest : List Int)
    (m : Machine) (hinv : MachInv (v :: rest) m)
    (hcap : rest.length + 1 ≤ 2048) :
    ∃ m', execInstrs pA fA
        ([.subRI EVAL_STACK 8, .movRM ARG1 EVAL_STACK 0] ++
         ([.movRR .rdi ARG1, .movRI .rax fA, .callR .rax] ++
          [.movMR EVAL_STACK 0 .rax, .addRI EVAL_STACK 8])) m = some m' ∧
      MachInv (factorialFn v :: rest) m' ∧ m'.mstack = m.mstack := by
  obtain ⟨m2, hex2, hinv2, hr2, _, hstk2, _⟩ :=
    exec_popEval pA fA ARG1 (by decide) v rest m hinv
  have hvI : isI64 v := by
    obtain ⟨_, _, _, hvals⟩ := hinv
    exact hvals v (by simp)
  have h3 : execInstr pA fA (Instr.movRR .rdi ARG1) m2 =
      some (setReg m2 .rdi v) := by
    show some (setReg m2 .rdi (m2.regs ARG1)) = _
    rw [hr2]
  have h4 : execInstr pA fA (Instr.movRI .rax fA) (setReg m2 .rdi v) =
      some (setReg (setReg m2 .rdi v) .rax fA) := by
    show some (setReg (setReg m2 .rdi v) .rax (wrap64 fA)) = _
    rw [wrap64_eq_self hfA]
  have hraxv : (setReg (setReg m2 .rdi v) .rax fA).regs .rax = fA := by
    rw [setReg_regs, if_pos rfl]
  have hrdiv : (setReg (setReg m2 .rdi v) .rax fA).regs .rdi = v := by
    rw [setReg_regs, if_neg (by decide), setReg_regs, if_pos rfl]
  have h5 : execInstr pA fA (Instr.callR .rax)
      (setReg (setReg m2 .rdi v) .rax fA) =
      some (setReg (setReg (setReg m2 .rdi v) .rax fA) .rax
        (factorialFn v)) := by
    show (if (setReg (setReg m2 .rdi v) .rax fA).regs .rax = pA then _
      else if (setReg (setReg m2 .rdi v) .rax fA).regs .rax = fA then
        some (setReg _ .rax (factorialFn
          ((setReg (setReg m2 .rdi v) .rax fA).regs .rdi)))
      else none) = _
    rw [hraxv, if_neg (fun h => hne h.symm), if_pos rfl, hrdiv]
  have hinv5 : MachInv rest (setReg (setReg (setReg m2 .rdi v) .rax fA)
      .rax (factorialFn v)) :=
    MachInv_setReg (MachInv_setReg (MachInv_setReg hinv2 (by decide) hvI)
      (by decide) hfA) (by decide) (isI64_factorialFn v)
  obtain ⟨m6, hex6, hinv6, hstk6, _⟩ :=
    exec_pushEvalReg pA fA .rax rest _ hinv5 hcap
  have hval : (setReg (setReg (setReg m2 .rdi v) .rax fA) .rax
      (factorialFn v)).regs .rax = factorialFn v := by
    rw [setReg_regs, if_pos rfl]
  rw [hval] at hinv6
  refine ⟨m6, ?_, hinv6, ?_⟩
  · rw [execInstrs_append_some hex2,
      execInstrs_append_some (show execInstrs pA fA
        [Instr.movRR .rdi ARG1, Instr.movRI .rax fA, Instr.callR .rax] m2 =
        some _ from by
          rw [execInstrs_cons_some h3, execInstrs_cons_some h4,
            execInstrs_cons_some h5, execInstrs_nil])]
    exact hex6
  · rw [hstk6, setReg_mstack, setReg_mstack, setReg_mstack, hstk2]

/-- The generated code for `BinaryOp(Pow)`: pop right into ARG1, left
into ARG2, native call to `pow` with (ARG2, ARG1) in (RDI, RSI), push
the RAX result. -/
theorem exec_binop_pow (pA fA : Int) (hpA : isI64 pA)
    (b a : Int) (rest : List Int)
    (m : Machine) (hinv : MachInv (b :: a :: rest) m)
    (hcap : rest.length + 1 ≤ 2048) :
    ∃ m', execInstrs pA fA
        ([.subRI EVAL_STACK 8, .movRM ARG1 EVAL_STACK 0] ++
         ([.subRI EVAL_STACK 8, .movRM ARG2 EVAL_STACK 0] ++
          ([.movRR .rdi ARG2, .movRR .rsi ARG1, .movRI .rax pA,
            .callR .rax] ++
           [.movMR EVAL_STACK 0 .rax, .addRI EVAL_STACK 8]))) m = some m' ∧
      MachInv (powFn a b :: rest) m' ∧ m'.mstack = m.mstack := by
  obtain ⟨hb, ha⟩ := stackTail_inv hinv
  obtain ⟨m2, hex2, hinv2, hr2, _, hstk2, hpres2⟩ :=
    exec_popEval pA fA ARG1 (by decide) b (a :: rest) m hinv
  obtain ⟨m3, hex3, hinv3, hr3, _, hstk3, hpres3⟩ :=
    exec_popEval pA fA ARG2 (by decide) a rest m2 hinv2
  have hr8 : m3.regs ARG1 = b := by
    rw [hpres3 ARG1 (by decide) (by decide), hr2]
  have h4 : execInstr pA fA (Instr.movRR .rdi ARG2) m3 =
      some (setReg m3 .rdi a) := by
    show some (setReg m3 .rdi (m3.regs ARG2)) = _
    rw [hr3]
  have h5 : execInstr pA fA (Instr.movRR .rsi ARG1) (setReg m3 .rdi a) =
      some (setReg (setReg m3 .rdi a) .rsi b) := by
    show some (setReg (setReg m3 .rdi a) .rsi
      ((setReg m3 .rdi a).regs ARG1)) = _
    rw [setReg_regs, if_neg (by decide), hr8]
  have h6 : execInstr pA fA (Instr.movRI .rax pA)
      (setReg (setReg m3 .rdi a) .rsi b) =
      some (setReg (setReg (setReg m3 .rdi a) .rsi b) .rax pA) := by
    show some (setReg (setReg (setReg m3 .rdi a) .rsi b) .rax
      (wrap64 pA)) = _
    rw [wrap64_eq_self hpA]
  have hrax : (setReg (setReg (setReg m3 .rdi a) .rsi b) .rax pA).regs
      .rax = pA := by
    rw [setReg_regs, if_pos rfl]
  have hrdi : (setReg (setReg (setReg m3 .rdi a) .rsi b) .rax pA).regs
      .rdi = a := by
    rw [setReg_regs, if_neg (by decide), setReg_regs, if_neg (by decide),
      setReg_regs, if_pos rfl]
  have hrsi : (setReg (setReg (setReg m3 .rdi a) .rsi b) .rax pA).regs
      .rsi = b := by
    rw [setReg_regs, if_neg (by decide), setReg_regs, if_pos rfl]
  have h7 : execInstr pA fA (Instr.callR .rax)
      (setReg (setReg (setReg m3 .rdi a) .rsi b) .rax pA) =
      some (setReg (setReg (setReg (setReg m3 .rdi a) .rsi b) .rax pA)
        .rax (powFn a b)) := by
    show (if (setReg (setReg (setReg m3 .rdi a) .rsi b) .rax pA).regs
        .rax = pA then
      some (setReg _ .rax (powFn
        ((setReg (setReg (setReg m3 .rdi a) .rsi b) .rax pA).regs .rdi)
        ((setReg (setReg (setReg m3 .rdi a) .rsi b) .rax pA).regs .rsi)))
      else _) = _
    rw [hrax, if_pos rfl, hrdi, hrsi]
  have hinv7 : MachInv rest (setReg (setReg (setReg (setReg m3 .rdi a)
      .rsi b) .rax pA) .rax (powFn a b)) :=
    MachInv_setReg (MachInv_setReg (MachInv_setReg (MachInv_setReg hinv3
      (by decide) ha) (by decide) hb) (by decide) hpA) (by decide)
      (wrap64_isI64 _)
  obtain ⟨m8, hex8, hinv8, hstk8, _⟩ :=
    exec_pushEvalReg pA fA .rax rest _ hinv7 hcap
  have hval : (setReg (setReg (setReg (setReg m3 .rdi a) .rsi b) .rax pA)
      .rax (powFn a b)).regs .rax = powFn a b := by
    rw [setReg_regs, if_pos rfl]
  rw [hval] at hinv8
  refine ⟨m8, ?_, hinv8, ?_⟩
  · rw [execInstrs_append_some hex2, execInstrs_append_some hex3,
      execInstrs_append_some (show execInstrs pA fA
        [Instr.movRR .rdi ARG2, Instr.movRR .rsi ARG1,
         Instr.movRI .rax pA, Instr.callR .rax] m3 = some _ from by
          rw [execInstrs_cons_some h4, execInstrs_cons_some h5,
            execInstrs_cons_some h6, execInstrs_cons_some h7,
            execInstrs_nil])]
    exact hex8
  · rw [hstk8, setReg_mstack, setReg_mstack, setReg_mstack, setReg_mstack,
      hstk3, hstk2]

theorem execInstrs_append_none {pA fA : Int} {l1 : List Instr}
    (l2 : List Instr) {m : Machine} (h : execInstrs pA fA l1 m = none) :
    execInstrs pA fA (l1 ++ l2) m = none := by
  rw [execInstrs_append, h]

theorem compileLoop_cons_ok {pA fA : Int} {vm : List String} {t : Token}
    {ts : List Token} {emits : List Emit} {vm' : List String}
    {e1 : List Emit} {vm1 : List String}
    (hct : compileToken pA fA vm t = .ok (e1, vm1))
    (hc : compileLoop pA fA vm (t :: ts) = .ok (emits, vm')) :
    ∃ e2, compileLoop pA fA vm1 ts = .ok (e2, vm') ∧ emits = e1 ++ e2 := by
  simp only [compileLoop] at hc
  rw [hct] at hc
  dsimp only at hc
  cases hrec : compileLoop pA fA vm1 ts with
  | error e => rw [hrec] at hc; exact absurd hc (by simp)
  | ok r2 =>
    rw [hrec] at hc
    simp only [Except.ok.injEq, Prod.mk.injEq] at hc
    obtain ⟨h1, h2⟩ := hc
    subst h2
    exact ⟨r2.1, by rw [Prod.mk.eta]; try exact hrec, h1.symm⟩

theorem compileLoop_cons_err {pA fA : Int} {vm : List String} {t : Token}
    {ts : List Token} {emits : List Emit} {vm' : List String}
    {e : CompileError} (hct : compileToken pA fA vm t = .error e)
    (hc : compileLoop pA fA vm (t :: ts) = .ok (emits, vm')) : False := by
  simp only [compileLoop] at hc
  rw [hct] at hc
  exact absurd hc (by simp)

theorem stack_two {st : List Int} (h : 2 ≤ st.length) :
    ∃ b a rest, st = b :: a :: rest := by
  match st with
  | b :: a :: rest => exact ⟨b, a, rest, rfl⟩
  | [] => simp at h
  | [b] => simp at h

theorem stack_one {st : List Int} (h : 1 ≤ st.length) :
    ∃ v rest, st = v :: rest := by
  match st with
  | v :: rest => exact ⟨v, rest, rfl⟩
  | [] => simp at h

theorem simSizes_number {n : Int} {ts : List Token} {d : Nat}
    (h : (simulateSizes (Token.number n :: ts) d).isSome) :
    (simulateSizes ts (d + 1)).isSome := h

theorem simSizes_binop {op : Op} {ts : List Token} {d : Nat}
    (h : (simulateSizes (Token.binaryOp op :: ts) d).isSome) :
    2 ≤ d ∧ (simulateSizes ts (d - 1)).isSome := by
  by_cases h2 : 2 ≤ d
  · refine ⟨h2, ?_⟩
    simpa [simulateSizes, h2] using h
  · simp [simulateSizes, h2] at h

theorem simSizes_unop {op : Op} {ts : List Token} {d : Nat}
    (h : (simulateSizes (Token.unaryOp op :: ts) d).isSome) :
    1 ≤ d ∧ (simulateSizes ts d).isSome := by
  by_cases h1 : 1 ≤ d
  · refine ⟨h1, ?_⟩
    simpa [simulateSizes, h1] using h
  · simp [simulateSizes, h1] at h

/-! ### The emitted block of each postfix token, named for reuse in the
simulation proof. Each is definitionally what `compileToken` returns. -/

def numEmits (n : Int) : List Emit :=
  [(.movRI SCRATCH_REG n, true), (.movMR EVAL_STACK 0 SCRATCH_REG, true),
   (.addRI EVAL_STACK 8, true)]

def plusEmits : List Emit :=
  [(.subRI EVAL_STACK 8, true), (.movRM ARG1 EVAL_STACK 0, true),
   (.subRI EVAL_STACK 8, true), (.movRM ARG2 EVAL_STACK 0, true),
   (.addRR ARG1 ARG2, true),
   (.movMR EVAL_STACK 0 ARG1, true), (.addRI EVAL_STACK 8, true)]

def minusEmits : List Emit :=
  [(.subRI EVAL_STACK 8, true), (.movRM ARG1 EVAL_STACK 0, true),
   (.subRI EVAL_STACK 8, true), (.movRM ARG2 EVAL_STACK 0, true),
   (.subRR ARG2 ARG1, true),
   (.movMR EVAL_STACK 0 ARG2, true), (.addRI EVAL_STACK 8, true)]

def multEmits : List Emit :=
  [(.subRI EVAL_STACK 8, true), (.movRM ARG1 EVAL_STACK 0, true),
   (.subRI EVAL_STACK 8, true), (.movRM ARG2 EVAL_STACK 0, true),
   (.movRR .rax ARG1, true), (.imulR ARG2, true),
   (.movMR EVAL_STACK 0 .rax, true), (.addRI EVAL_STACK 8, true)]

def divEmits : List Emit :=
  [(.subRI EVAL_STACK 8, true), (.movRM ARG1 EVAL_STACK 0, true),
   (.subRI EVAL_STACK 8, true), (.movRM ARG2 EVAL_STACK 0, true),
   (.movRR .rax ARG2, true), (.cqo, true), (.idivR ARG1, true),
   (.movMR EVAL_STACK 0 .rax, true), (.addRI EVAL_STACK 8, true)]

def powEmits (pA : Int) : List Emit :=
  [(.subRI EVAL_STACK 8, true), (.movRM ARG1 EVAL_STACK 0, true),
   (.subRI EVAL_STACK 8, true), (.movRM ARG2 EVAL_STACK 0, true),
   (.movRR .rdi ARG2, true), (.movRR .rsi ARG1, true),
   (.movRI .rax pA, false), (.callR .rax, true),
   (.movMR EVAL_STACK 0 .rax, true), (.addRI EVAL_STACK 8, true)]

def uplusEmits : List Emit :=
  [(.subRI EVAL_STACK 8, true), (.movRM ARG1 EVAL_STACK 0, true),
   (.movMR EVAL_STACK 0 ARG1, true), (.addRI EVAL_STACK 8, true)]

def uminusEmits : List Emit :=
  [(.subRI EVAL_STACK 8, true), (.movRM ARG1 EVAL_STACK 0, true),
   (.negR ARG1, true),
   (.movMR EVAL_STACK 0 ARG1, true), (.addRI EVAL_STACK 8, true)]

def ufactEmits (fA : Int) : List Emit :=
  [(.subRI EVAL_STACK 8, true), (.movRM ARG1 EVAL_STACK 0, true),
   (.movRR .rdi ARG1, true), (.movRI .rax fA, false), (.callR .rax, true),
   (.movMR EVAL_STACK 0 .rax, true), (.addRI EVAL_STACK 8, true)]

theorem map_numEmits (n : Int) : (numEmits n).map Prod.fst =
    [.movRI SCRATCH_REG n, .movMR EVAL_STACK 0 SCRATCH_REG,
     .addRI EVAL_STACK 8] := rfl

theorem map_plusEmits : plusEmits.map Prod.fst =
    ([.subRI EVAL_STACK 8, .movRM ARG1 EVAL_STACK 0] ++
     ([.subRI EVAL_STACK 8, .movRM ARG2 EVAL_STACK 0] ++
      ([Instr.addRR ARG1 ARG2] ++
       [.movMR EVAL_STACK 0 ARG1, .addRI EVAL_STACK 8]))) := rfl

theorem map_minusEmits : minusEmits.map Prod.fst =
    ([.subRI EVAL_STACK 8, .movRM ARG1 EVAL_STACK 0] ++
     ([.subRI EVAL_STACK 8, .movRM ARG2 EVAL_STACK 0] ++
      ([Instr.subRR ARG2 ARG1] ++
       [.movMR EVAL_STACK 0 ARG2, .addRI EVAL_STACK 8]))) := rfl

theorem map_multEmits : multEmits.map Prod.fst =
    ([.subRI EVAL_STACK 8, .movRM ARG1 EVAL_STACK 0] ++
     ([.subRI EVAL_STACK 8, .movRM ARG2 EVAL_STACK 0] ++
      ([.movRR .rax ARG1, .imulR ARG2] ++
       [.movMR EVAL_STACK 0 .rax, .addRI EVAL_STACK 8]))) := rfl

theorem map_divEmits : divEmits.map Prod.fst =
    ([.subRI EVAL_STACK 8, .movRM ARG1 EVAL_STACK 0] ++
     ([.subRI EVAL_STACK 8, .movRM ARG2 EVAL_STACK 0] ++
      ([.movRR .rax ARG2, .cqo, .idivR ARG1] ++
       [.movMR EVAL_STACK 0 .rax, .addRI EVAL_STACK 8]))) := rfl

theorem map_powEmits (pA : Int) : (powEmits pA).map Prod.fst =
    ([.subRI EVAL_STACK 8, .movRM ARG1 EVAL_STACK 0] ++
     ([.subRI EVAL_STACK 8, .movRM ARG2 EVAL_STACK 0] ++
      ([.movRR .rdi ARG2, .movRR .rsi ARG1, .movRI .rax pA,
        .callR .rax] ++
       [.movMR EVAL_STACK 0 .rax, .addRI EVAL_STACK 8]))) := rfl

theorem map_uplusEmits : uplusEmits.map Prod.fst =
    ([.subRI EVAL_STACK 8, .movRM ARG1 EVAL_STACK 0] ++
     [.movMR EVAL_STACK 0 ARG1, .addRI EVAL_STACK 8]) := rfl

theorem map_uminusEmits : uminusEmits.map Prod.fst =
    ([.subRI EVAL_STACK 8, .movRM ARG1 EVAL_STACK 0] ++
     ([Instr.negR ARG1] ++
      [.movMR EVAL_STACK 0 ARG1, .addRI EVAL_STACK 8])) := rfl

theorem map_ufactEmits (fA : Int) : (ufactEmits fA).map Prod.fst =
    ([.subRI EVAL_STACK 8, .movRM ARG1 EVAL_STACK 0] ++
     ([.movRR .rdi ARG1, .movRI .rax fA, .callR .rax] ++
      [.movMR EVAL_STACK 0 .rax, .addRI EVAL_STACK 8])) := rfl

/-- Body simulation: executing the instructions that `compileLoop` emits
for a postfix token sequence tracks the reference evaluator's stack loop
step for step — when the evaluator succeeds the machine reaches a state
satisfying the stack invariant for the evaluator's final stack, and when
the evaluator panics (division fault) the machine faults too. Numbers must
be in `i64` range, variables are absent, the abstract stack never
underflows, and the eval-stack area capacity (2048 slots) is respected. -/
theorem compile_simulates (pA fA : Int) (hpA : isI64 pA) (hfA : isI64 fA)
    (hne : pA ≠ fA) (f : String → Option Int) (ts : List Token) :
    ∀ (vm : List String) (emits : List Emit) (vm' : List String)
      (st : List Int) (m : Machine),
      (∀ n, Token.number n ∈ ts → isI64 n) →
      (∀ name, Token.variable name ∉ ts) →
      compileLoop pA fA vm ts = .ok (emits, vm') →
      (simulateSizes ts st.length).isSome →
      st.length + ts.length ≤ 2048 →
      MachInv st m →
      (∀ st', rpnEvalLoop f ts st = .ok st' →
        ∃ m', execInstrs pA fA (emits.map Prod.fst) m = some m' ∧
          MachInv st' m' ∧ m'.mstack = m.mstack) ∧
      (∀ e, rpnEvalLoop f ts st = .error e →
        execInstrs pA fA (emits.map Prod.fst) m = none) := by
  induction ts with
  | nil =>
    intro vm emits vm' st m hnum hnov hc hsz hcap hinv
    simp only [compileLoop, Except.ok.injEq, Prod.mk.injEq] at hc
    obtain ⟨h1, h2⟩ := hc
    subst h1
    constructor
    · intro st' hev
      simp only [rpnEvalLoop, Except.ok.injEq] at hev
      subst hev
      exact ⟨m, rfl, hinv, rfl⟩
    · intro e hev
      simp only [rpnEvalLoop] at hev
      exact Except.noConfusion hev
  | cons t ts ih =>
    intro vm emits vm' st m hnum hnov hc hsz hcap hinv
    have hnum' : ∀ n, Token.number n ∈ ts → isI64 n :=
      fun n hn => hnum n (List.mem_cons_of_mem _ hn)
    have hnov' : ∀ name, Token.variable name ∉ ts :=
      fun name hn => hnov name (List.mem_cons_of_mem _ hn)
    cases t with
    | «variable» name => exact absurd (List.mem_cons_self _ _) (hnov name)
    | lparen =>
      exact (compileLoop_cons_err (show compileToken pA fA vm Token.lparen =
        .error .panicked from rfl) hc).elim
    | rparen =>
      exact (compileLoop_cons_err (show compileToken pA fA vm Token.rparen =
        .error .panicked from rfl) hc).elim
    | number n =>
      have hct : compileToken pA fA vm (Token.number n) =
          .ok (numEmits n, vm) := rfl
      obtain ⟨e2, hrec, rfl⟩ := compileLoop_cons_ok hct hc
      have hnI : isI64 n := hnum n (List.mem_cons_self _ _)
      have hcap1 : st.length + 1 ≤ 2048 := by
        simp only [List.length_cons] at hcap; omega
      obtain ⟨m2, hex2, hinv2, hstk2⟩ :=
        exec_pushEvalImm pA fA n hnI st m hinv hcap1
      have heval : rpnEvalLoop f (Token.number n :: ts) st =
          rpnEvalLoop f ts (n :: st) := rfl
      have hsz2 : (simulateSizes ts ((n :: st : List Int)).length).isSome := by
        simp only [List.length_cons]
        exact simSizes_number hsz
      have hcap2 : (n :: st : List Int).length + ts.length ≤ 2048 := by
        simp only [List.length_cons] at hcap ⊢; omega
      have hbody := ih vm e2 vm' (n :: st) m2 hnum' hnov' hrec hsz2 hcap2 hinv2
      constructor
      · intro stF hev
        rw [heval] at hev
        obtain ⟨mF, hexF, hinvF, hstkF⟩ := hbody.1 stF hev
        refine ⟨mF, ?_, hinvF, by rw [hstkF, hstk2]⟩
        rw [List.map_append, map_numEmits, execInstrs_append_some hex2]
        exact hexF
      · intro e hev
        rw [heval] at hev
        rw [List.map_append, map_numEmits, execInstrs_append_some hex2]
        exact hbody.2 e hev
    | binaryOp op =>
      obtain ⟨h2le, hsz'⟩ := simSizes_binop hsz
      obtain ⟨b, a, rest, rfl⟩ := stack_two h2le
      have hcap' : rest.length + 1 ≤ 2048 := by
        simp only [List.length_cons] at hcap; omega
      cases op with
      | fact =>
        exact (compileLoop_cons_err (show compileToken pA fA vm
          (Token.binaryOp Op.fact) = .error (.unknownOp .fact) from rfl)
          hc).elim
      | plus =>
        have hct : compileToken pA fA vm (Token.binaryOp Op.plus) =
            .ok (plusEmits, vm) := rfl
        obtain ⟨e2, hrec, rfl⟩ := compileLoop_cons_ok hct hc
        obtain ⟨m2, hex2, hinv2, hstk2⟩ :=
          exec_binop_plus pA fA b a rest m hinv hcap'
        have heval : rpnEvalLoop f (Token.binaryOp Op.plus :: ts)
            (b :: a :: rest) = rpnEvalLoop f ts (wrap64 (a + b) :: rest) := rfl
        have hsz2 : (simulateSizes ts
            ((wrap64 (a + b) :: rest : List Int)).length).isSome := by
          simp only [List.length_cons, Nat.add_sub_cancel] at hsz' ⊢
          exact hsz'
        have hcap2 : (wrap64 (a + b) :: rest : List Int).length + ts.length
            ≤ 2048 := by
          simp only [List.length_cons] at hcap ⊢; omega
        have hbody := ih vm e2 vm' (wrap64 (a + b) :: rest) m2 hnum' hnov'
          hrec hsz2 hcap2 hinv2
        constructor
        · intro stF hev
          rw [heval] at hev
          obtain ⟨mF, hexF, hinvF, hstkF⟩ := hbody.1 stF hev
          refine ⟨mF, ?_, hinvF, by rw [hstkF, hstk2]⟩
          rw [List.map_append, map_plusEmits, execInstrs_append_some hex2]
          exact hexF
        · intro e hev
          rw [heval] at hev
          rw [List.map_append, map_plusEmits, execInstrs_append_some hex2]
          exact hbody.2 e hev
      | minus =>
        have hct : compileToken pA fA vm (Token.binaryOp Op.minus) =
            .ok (minusEmits, vm) := rfl
        obtain ⟨e2, hrec, rfl⟩ := compileLoop_cons_ok hct hc
        obtain ⟨m2, hex2, hinv2, hstk2⟩ :=
          exec_binop_minus pA fA b a rest m hinv hcap'
        have heval : rpnEvalLoop f (Token.binaryOp Op.minus :: ts)
            (b :: a :: rest) = rpnEvalLoop f ts (wrap64 (a - b) :: rest) := rfl
        have hsz2 : (simulateSizes ts
            ((wrap64 (a - b) :: rest : List Int)).length).isSome := by
          simp only [List.length_cons, Nat.add_sub_cancel] at hsz' ⊢
          exact hsz'
        have hcap2 : (wrap64 (a - b) :: rest : List Int).length + ts.length
            ≤ 2048 := by
          simp only [List.length_cons] at hcap ⊢; omega
        have hbody := ih vm e2 vm' (wrap64 (a - b) :: rest) m2 hnum' hnov'
          hrec hsz2 hcap2 hinv2
        constructor
        · intro stF hev
          rw [heval] at hev
          obtain ⟨mF, hexF, hinvF, hstkF⟩ := hbody.1 stF hev
          refine ⟨mF, ?_, hinvF, by rw [hstkF, hstk2]⟩
          rw [List.map_append, map_minusEmits, execInstrs_append_some hex2]
          exact hexF
        · intro e hev
          rw [heval] at hev
          rw [List.map_append, map_minusEmits, execInstrs_append_some hex2]
          exact hbody.2 e hev
      | mult =>
        have hct : compileToken pA fA vm (Token.binaryOp Op.mult) =
            .ok (multEmits, vm) := rfl
        obtain ⟨e2, hrec, rfl⟩ := compileLoop_cons_ok hct hc
        obtain ⟨m2, hex2, hinv2, hstk2⟩ :=
          exec_binop_mult pA fA b a rest m hinv hcap'
        have heval : rpnEvalLoop f (Token.binaryOp Op.mult :: ts)
            (b :: a :: rest) = rpnEvalLoop f ts (wrap64 (a * b) :: rest) := rfl
        have hsz2 : (simulateSizes ts
            ((wrap64 (a * b) :: rest : List Int)).length).isSome := by
          simp only [List.length_cons, Nat.add_sub_cancel] at hsz' ⊢
          exact hsz'
        have hcap2 : (wrap64 (a * b) :: rest : List Int).length + ts.length
            ≤ 2048 := by
          simp only [List.length_cons] at hcap ⊢; omega
        have hbody := ih vm e2 vm' (wrap64 (a * b) :: rest) m2 hnum' hnov'
          hrec hsz2 hcap2 hinv2
        constructor
        · intro stF hev
          rw [heval] at hev
          obtain ⟨mF, hexF, hinvF, hstkF⟩ := hbody.1 stF hev
          refine ⟨mF, ?_, hinvF, by rw [hstkF, hstk2]⟩
          rw [List.map_append, map_multEmits, execInstrs_append_some hex2]
          exact hexF
        · intro e hev
          rw [heval] at hev
          rw [List.map_append, map_multEmits, execInstrs_append_some hex2]
          exact hbody.2 e hev
      | pow =>
        have hct : compileToken pA fA vm (Token.binaryOp Op.pow) =
            .ok (powEmits pA, vm) := rfl
        obtain ⟨e2, hrec, rfl⟩ := compileLoop_cons_ok hct hc
        obtain ⟨m2, hex2, hinv2, hstk2⟩ :=
          exec_binop_pow pA fA hpA b a rest m hinv hcap'
        have heval : rpnEvalLoop f (Token.binaryOp Op.pow :: ts)
            (b :: a :: rest) = rpnEvalLoop f ts (powFn a b :: rest) := rfl
        have hsz2 : (simulateSizes ts
            ((powFn a b :: rest : List Int)).length).isSome := by
          simp only [List.length_cons, Nat.add_sub_cancel] at hsz' ⊢
          exact hsz'
        have hcap2 : (powFn a b :: rest : List Int).length + ts.length
            ≤ 2048 := by
          simp only [List.length_cons] at hcap ⊢; omega
        have hbody := ih vm e2 vm' (powFn a b :: rest) m2 hnum' hnov'
          hrec hsz2 hcap2 hinv2
        constructor
        · intro stF hev
          rw [heval] at hev
          obtain ⟨mF, hexF, hinvF, hstkF⟩ := hbody.1 stF hev
          refine ⟨mF, ?_, hinvF, by rw [hstkF, hstk2]⟩
          rw [List.map_append, map_powEmits, execInstrs_append_some hex2]
          exact hexF
        · intro e hev
          rw [heval] at hev
          rw [List.map_append, map_powEmits, execInstrs_append_some hex2]
          exact hbody.2 e hev
      | div =>
        have hct : compileToken pA fA vm (Token.binaryOp Op.div) =
            .ok (divEmits, vm) := rfl
        obtain ⟨e2, hrec, rfl⟩ := compileLoop_cons_ok hct hc
        have hdd := exec_binop_div pA fA b a rest m hinv hcap'
        by_cases hfault : b = 0 ∨ (a = i64Min ∧ b = -1)
        · have heval : rpnEvalLoop f (Token.binaryOp Op.div :: ts)
              (b :: a :: rest) = .error .panicked := by
            show (if b = 0 ∨ (a = i64Min ∧ b = -1)
                then (.error .panicked : Except RpnEvalError (List Int))
                else rpnEvalLoop f ts (Int.tdiv a b :: rest)) = _
            rw [if_pos hfault]
          have hnone := hdd.1 hfault
          constructor
          · intro stF hev
            rw [heval] at hev
            exact Except.noConfusion hev
          · intro e hev
            rw [List.map_append, map_divEmits]
            exact execInstrs_append_none _ hnone
        · obtain ⟨m2, hex2, hinv2, hstk2⟩ := hdd.2 hfault
          have heval : rpnEvalLoop f (Token.binaryOp Op.div :: ts)
              (b :: a :: rest) = rpnEvalLoop f ts (Int.tdiv a b :: rest) := by
            show (if b = 0 ∨ (a = i64Min ∧ b = -1)
                then (.error .panicked : Except RpnEvalError (List Int))
                else rpnEvalLoop f ts (Int.tdiv a b :: rest)) = _
            rw [if_neg hfault]
          have hsz2 : (simulateSizes ts
              ((Int.tdiv a b :: rest : List Int)).length).isSome := by
            simp only [List.length_cons, Nat.add_sub_cancel] at hsz' ⊢
            exact hsz'
          have hcap2 : (Int.tdiv a b :: rest : List Int).length + ts.length
              ≤ 2048 := by
            simp only [List.length_cons] at hcap ⊢; omega
          have hbody := ih vm e2 vm' (Int.tdiv a b :: rest) m2 hnum' hnov'
            hrec hsz2 hcap2 hinv2
          constructor
          · intro stF hev
            rw [heval] at hev
            obtain ⟨mF, hexF, hinvF, hstkF⟩ := hbody.1 stF hev
            refine ⟨mF, ?_, hinvF, by rw [hstkF, hstk2]⟩
            rw [List.map_append, map_divEmits, execInstrs_append_some hex2]
            exact hexF
          · intro e hev
            rw [heval] at hev
            rw [List.map_append, map_divEmits, execInstrs_append_some hex2]
            exact hbody.2 e hev
    | unaryOp op =>
      obtain ⟨h1le, hsz'⟩ := simSizes_unop hsz
      obtain ⟨v, rest, rfl⟩ := stack_one h1le
      have hcap' : rest.length + 1 ≤ 2048 := by
        simp only [List.length_cons] at hcap; omega
      cases op with
      | mult =>
        exact (compileLoop_cons_err (show compileToken pA fA vm
          (Token.unaryOp Op.mult) = .error (.unknownOp .mult) from rfl)
          hc).elim
      | div =>
        exact (compileLoop_cons_err (show compileToken pA fA vm
          (Token.unaryOp Op.div) = .error (.unknownOp .div) from rfl)
          hc).elim
      | pow =>
        exact (compileLoop_cons_err (show compileToken pA fA vm
          (Token.unaryOp Op.pow) = .error (.unknownOp .pow) from rfl)
          hc).elim
      | plus =>
        have hct : compileToken pA fA vm (Token.unaryOp Op.plus) =
            .ok (uplusEmits, vm) := rfl
        obtain ⟨e2, hrec, rfl⟩ := compileLoop_cons_ok hct hc
        obtain ⟨m2, hex2, hinv2, hstk2⟩ :=
          exec_unop_plus pA fA v rest m hinv hcap'
        have heval : rpnEvalLoop f (Token.unaryOp Op.plus :: ts)
            (v :: rest) = rpnEvalLoop f ts (v :: rest) := rfl
        have hcap2 : (v :: rest : List Int).length + ts.length ≤ 2048 := by
          simp only [List.length_cons] at hcap ⊢; omega
        have hbody := ih vm e2 vm' (v :: rest) m2 hnum' hnov'
          hrec hsz' hcap2 hinv2
        constructor
        · intro stF hev
          rw [heval] at hev
          obtain ⟨mF, hexF, hinvF, hstkF⟩ := hbody.1 stF hev
          refine ⟨mF, ?_, hinvF, by rw [hstkF, hstk2]⟩
          rw [List.map_append, map_uplusEmits, execInstrs_append_some hex2]
          exact hexF
        · intro e hev
          rw [heval] at hev
          rw [List.map_append, map_uplusEmits, execInstrs_append_some hex2]
          exact hbody.2 e hev
      | minus =>
        have hct : compileToken pA fA vm (Token.unaryOp Op.minus) =
            .ok (uminusEmits, vm) := rfl
        obtain ⟨e2, hrec, rfl⟩ := compileLoop_cons_ok hct hc
        obtain ⟨m2, hex2, hinv2, hstk2⟩ :=
          exec_unop_minus pA fA v rest m hinv hcap'
        have heval : rpnEvalLoop f (Token.unaryOp Op.minus :: ts)
            (v :: rest) = rpnEvalLoop f ts (wrap64 (-v) :: rest) := rfl
        have hsz2 : (simulateSizes ts
            ((wrap64 (-v) :: rest : List Int)).length).isSome := by
          simp only [List.length_cons] at hsz' ⊢
          exact hsz'
        have hcap2 : (wrap64 (-v) :: rest : List Int).length + ts.length
            ≤ 2048 := by
          simp only [List.length_cons] at hcap ⊢; omega
        have hbody := ih vm e2 vm' (wrap64 (-v) :: rest) m2 hnum' hnov'
          hrec hsz2 hcap2 hinv2
        constructor
        · intro stF hev
          rw [heval] at hev
          obtain ⟨mF, hexF, hinvF, hstkF⟩ := hbody.1 stF hev
          refine ⟨mF, ?_, hinvF, by rw [hstkF, hstk2]⟩
          rw [List.map_append, map_uminusEmits, execInstrs_append_some hex2]
          exact hexF
        · intro e hev
          rw [heval] at hev
          rw [List.map_append, map_uminusEmits, execInstrs_append_some hex2]
          exact hbody.2 e hev
      | fact =>
        have hct : compileToken pA fA vm (Token.unaryOp Op.fact) =
            .ok (ufactEmits fA, vm) := rfl
        obtain ⟨e2, hrec, rfl⟩ := compileLoop_cons_ok hct hc
        obtain ⟨m2, hex2, hinv2, hstk2⟩ :=
          exec_unop_fact pA fA hfA hne v rest m hinv hcap'
        have heval : rpnEvalLoop f (Token.unaryOp Op.fact :: ts)
            (v :: rest) = rpnEvalLoop f ts (factorialFn v :: rest) := rfl
        have hsz2 : (simulateSizes ts
            ((factorialFn v :: rest : List Int)).length).isSome := by
          simp only [List.length_cons] at hsz' ⊢
          exact hsz'
        have hcap2 : (factorialFn v :: rest : List Int).length + ts.length
            ≤ 2048 := by
          simp only [List.length_cons] at hcap ⊢; omega
        have hbody := ih vm e2 vm' (factorialFn v :: rest) m2 hnum' hnov'
          hrec hsz2 hcap2 hinv2
        constructor
        · intro stF hev
          rw [heval] at hev
          obtain ⟨mF, hexF, hinvF, hstkF⟩ := hbody.1 stF hev
          refine ⟨mF, ?_, hinvF, by rw [hstkF, hstk2]⟩
          rw [List.map_append, map_ufactEmits, execInstrs_append_some hex2]
          exact hexF
        · intro e hev
          rw [heval] at hev
          rw [List.map_append, map_ufactEmits, execInstrs_append_some hex2]
          exact hbody.2 e hev

/-- The shape of tokens the tokenizer can actually emit: literals lie in
`[0, i64::MAX]`, `Fact` is never a binary operator, and the only unary
operators are `Minus` and `Fact` (`+` is always classified binary, `* / ^`
are always binary). -/
def tokOk : Token → Prop
  | .number n => 0 ≤ n ∧ n ≤ i64Max
  | .binaryOp op => op ≠ Op.fact
  | .unaryOp op => op = Op.minus ∨ op = Op.fact
  | _ => True

theorem push_of_num_ite {v : Nat} {rs : List Char} {t : Token}
    {rest' : List Char}
    (h : (if (v : Int) > i64Max then StepRes.err .integerParseError
          else .push (Token.number (v : Int)) rs) = .push t rest') :
    tokOk t := by
  split at h
  · exact StepRes.noConfusion h
  · rename_i hov
    injection h with h1 h2
    subst h1
    exact ⟨Int.natCast_nonneg _, by unfold i64Max at hov ⊢; omega⟩

set_option maxHeartbeats 1600000 in
theorem tokenizeStep_tokOk {prev : Option Token} {c : Char}
    {rest : List Char} {t : Token} {rest' : List Char}
    (h : tokenizeStep prev c rest = .push t rest') : tokOk t := by
  unfold tokenizeStep at h
  split at h
  · injection h with h1 h2
    subst h1
    trivial
  · split at h
    · split at h
      · exact push_of_num_ite h
      · exact push_of_num_ite h
    · split at h
      · injection h with h1 h2; subst h1
        exact (show Op.plus ≠ Op.fact by decide)
      · split at h
        · injection h with h1 h2
          subst h1
          by_cases hu : makesUnary prev = true
          · rw [if_pos hu]; exact Or.inl rfl
          · rw [if_neg hu]; exact (show Op.minus ≠ Op.fact by decide)
        · split at h
          · injection h with h1 h2; subst h1
            exact Or.inr rfl
          · split at h
            · injection h with h1 h2; subst h1
              exact (show Op.pow ≠ Op.fact by decide)
            · split at h
              · injection h with h1 h2; subst h1
                exact (show Op.mult ≠ Op.fact by decide)
              · split at h
                · injection h with h1 h2; subst h1
                  exact (show Op.div ≠ Op.fact by decide)
                · split at h
                  · injection h with h1 h2; subst h1; trivial
                  · split at h
                    · injection h with h1 h2; subst h1; trivial
                    · split at h
                      · exact StepRes.noConfusion h
                      · exact StepRes.noConfusion h

theorem tokenizeLoop_tokOk : ∀ (fuel : Nat) (prev : Option Token)
    (vars : List String) (acc : List Token) (cs : List Char)
    (toks : List Token) (p' : Option Token) (v' : List String),
    (∀ t ∈ acc, tokOk t) →
    tokenizeLoop fuel prev vars acc cs = .ok (toks, p', v') →
    ∀ t ∈ toks, tokOk t := by
  intro fuel
  induction fuel with
  | zero =>
    intro prev vars acc cs toks p' v' hacc h t ht
    cases cs with
    | nil =>
      simp only [tokenizeLoop, Except.ok.injEq, Prod.mk.injEq] at h
      obtain ⟨h1, _, _⟩ := h
      subst h1
      exact hacc t (List.mem_reverse.mp ht)
    | cons c rest =>
      simp only [tokenizeLoop] at h
      exact Except.noConfusion h
  | succ fuel ih =>
    intro prev vars acc cs toks p' v' hacc h t ht
    cases cs with
    | nil =>
      simp only [tokenizeLoop, Except.ok.injEq, Prod.mk.injEq] at h
      obtain ⟨h1, _, _⟩ := h
      subst h1
      exact hacc t (List.mem_reverse.mp ht)
    | cons c rest =>
      simp only [tokenizeLoop] at h
      cases hstep : tokenizeStep prev c rest with
      | err e =>
        rw [hstep] at h
        exact Except.noConfusion h
      | push t2 rest2 =>
        rw [hstep] at h
        have hacc2 : ∀ u ∈ t2 :: acc, tokOk u := by
          intro u hu
          rcases List.mem_cons.mp hu with h' | h'
          · exact h' ▸ tokenizeStep_tokOk hstep
          · exact hacc u h'
        exact ih (some t2) _ (t2 :: acc) rest2 toks p' v' hacc2 h t ht
      | skip rest2 =>
        rw [hstep] at h
        exact ih acc.head? vars acc rest2 toks p' v' hacc h t ht

/-- Soundness of the tokenizer's output: every emitted token is `tokOk`. -/
theorem tokenize_tokOk {tk : Tokenizer} {s : String} {toks : List Token}
    {tk' : Tokenizer} (h : tokenize tk s = .ok (toks, tk')) :
    ∀ t ∈ toks, tokOk t := by
  unfold tokenize at h
  cases hl : tokenizeLoop s.data.length tk.prev tk.seenVars [] s.data with
  | error e => rw [hl] at h; exact Except.noConfusion h
  | ok r =>
    obtain ⟨toks0, p0, v0⟩ := r
    rw [hl] at h
    have h2 : toks0 = toks := by
      have h3 : (Except.ok (toks0, (⟨p0, v0⟩ : Tokenizer)) :
          Except TokenizerError (List Token × Tokenizer)) = .ok (toks, tk') := h
      simp only [Except.ok.injEq, Prod.mk.injEq] at h3
      exact h3.1
    subst h2
    exact tokenizeLoop_tokOk _ _ _ _ _ _ _ _
      (fun t ht => absurd ht (List.not_mem_nil t)) hl

/-! ### The converter moves tokens but never invents them: every token of
a successful conversion's output occurs in the input. -/

theorem popLoop_subset : ∀ (stack output : List Token) (pa : PrecAssoc),
    (∀ t ∈ (popLoop pa output stack).1, t ∈ output ∨ t ∈ stack) ∧
    (∀ t ∈ (popLoop pa output stack).2, t ∈ stack) := by
  intro stack
  induction stack with
  | nil =>
    intro output pa
    constructor
    · intro t ht
      exact Or.inl ht
    · intro t ht
      simp only [popLoop] at ht
      exact absurd ht (List.not_mem_nil t)
  | cons top rest ih =>
    intro output pa
    by_cases hp : shouldPop pa top = true
    · have hl : popLoop pa output (top :: rest) =
          popLoop pa (output ++ [top]) rest := by
        rw [popLoop, if_pos hp]
      rw [hl]
      obtain ⟨ih1, ih2⟩ := ih (output ++ [top]) pa
      constructor
      · intro t ht
        rcases ih1 t ht with h' | h'
        · rcases List.mem_append.mp h' with h'' | h''
          · exact Or.inl h''
          · exact Or.inr (by simp at h''; simp [h''])
        · exact Or.inr (List.mem_cons_of_mem _ h')
      · intro t ht
        exact List.mem_cons_of_mem _ (ih2 t ht)
    · have hl : popLoop pa output (top :: rest) = (output, top :: rest) := by
        rw [popLoop, if_neg hp]
      rw [hl]
      exact ⟨fun t ht => Or.inl ht, fun t ht => ht⟩

theorem rparenLoop_subset : ∀ (stack output out' stk' : List Token),
    rparenLoop output stack = some (out', stk') →
    (∀ t ∈ out', t ∈ output ∨ t ∈ stack) ∧ (∀ t ∈ stk', t ∈ stack) := by
  intro stack
  induction stack with
  | nil =>
    intro output out' stk' h
    simp only [rparenLoop] at h
    exact Option.noConfusion h
  | cons tok rest ih =>
    intro output out' stk' h
    by_cases he : tok = Token.lparen
    · rw [rparenLoop, if_pos he] at h
      simp only [Option.some.injEq, Prod.mk.injEq] at h
      obtain ⟨h1, h2⟩ := h
      subst h1; subst h2
      exact ⟨fun t ht => Or.inl ht,
        fun t ht => List.mem_cons_of_mem _ ht⟩
    · rw [rparenLoop, if_neg he] at h
      obtain ⟨ih1, ih2⟩ := ih (output ++ [tok]) out' stk' h
      constructor
      · intro t ht
        rcases ih1 t ht with h' | h'
        · rcases List.mem_append.mp h' with h'' | h''
          · exact Or.inl h''
          · exact Or.inr (by simp at h''; simp [h''])
        · exact Or.inr (List.mem_cons_of_mem _ h')
      · intro t ht
        exact List.mem_cons_of_mem _ (ih2 t ht)

theorem drainLoop_subset : ∀ (stack output out' : List Token),
    drainLoop output stack = .ok out' →
    ∀ t ∈ out', t ∈ output ∨ t ∈ stack := by
  intro stack
  induction stack with
  | nil =>
    intro output out' h t ht
    simp only [drainLoop, Except.ok.injEq] at h
    subst h
    exact Or.inl ht
  | cons tok rest ih =>
    intro output out' h t ht
    cases tok with
    | binaryOp op =>
      simp only [drainLoop] at h
      rcases ih (output ++ [Token.binaryOp op]) out' h t ht with h' | h'
      · rcases List.mem_append.mp h' with h'' | h''
        · exact Or.inl h''
        · exact Or.inr (by simp at h''; simp [h''])
      · exact Or.inr (List.mem_cons_of_mem _ h')
    | unaryOp op =>
      simp only [drainLoop] at h
      rcases ih (output ++ [Token.unaryOp op]) out' h t ht with h' | h'
      · rcases List.mem_append.mp h' with h'' | h''
        · exact Or.inl h''
        · exact Or.inr (by simp at h''; simp [h''])
      · exact Or.inr (List.mem_cons_of_mem _ h')
    | lparen => simp only [drainLoop] at h; exact Except.noConfusion h
    | rparen => simp only [drainLoop] at h; exact Except.noConfusion h
    | «variable» name =>
      simp only [drainLoop] at h; exact Except.noConfusion h
    | number n => simp only [drainLoop] at h; exact Except.noConfusion h

theorem convertLoop_subset : ∀ (ts output stack : List Token)
    (out' stk' : List Token),
    convertLoop output stack ts = .ok (out', stk') →
    ∀ t, (t ∈ out' ∨ t ∈ stk') → t ∈ output ∨ t ∈ stack ∨ t ∈ ts := by
  intro ts
  induction ts with
  | nil =>
    intro output stack out' stk' h t ht
    simp only [convertLoop, Except.ok.injEq, Prod.mk.injEq] at h
    obtain ⟨h1, h2⟩ := h
    subst h1; subst h2
    rcases ht with h' | h'
    · exact Or.inl h'
    · exact Or.inr (Or.inl h')
  | cons u ts ih =>
    intro output stack out' stk' h t ht
    cases u with
    | number n =>
      simp only [convertLoop] at h
      rcases ih (output ++ [Token.number n]) stack out' stk' h t ht with
        h' | h' | h'
      · rcases List.mem_append.mp h' with h'' | h''
        · exact Or.inl h''
        · exact Or.inr (Or.inr (by simp at h''; simp [h'']))
      · exact Or.inr (Or.inl h')
      · exact Or.inr (Or.inr (List.mem_cons_of_mem _ h'))
    | «variable» name =>
      simp only [convertLoop] at h
      rcases ih (output ++ [Token.variable name]) stack out' stk' h t ht with
        h' | h' | h'
      · rcases List.mem_append.mp h' with h'' | h''
        · exact Or.inl h''
        · exact Or.inr (Or.inr (by simp at h''; simp [h'']))
      · exact Or.inr (Or.inl h')
      · exact Or.inr (Or.inr (List.mem_cons_of_mem _ h'))
    | unaryOp op =>
      simp only [convertLoop] at h
      rcases ih output (Token.unaryOp op :: stack) out' stk' h t ht with
        h' | h' | h'
      · exact Or.inl h'
      · rcases List.mem_cons.mp h' with h'' | h''
        · exact Or.inr (Or.inr (by simp [h'']))
        · exact Or.inr (Or.inl h'')
      · exact Or.inr (Or.inr (List.mem_cons_of_mem _ h'))
    | lparen =>
      simp only [convertLoop] at h
      rcases ih output (Token.lparen :: stack) out' stk' h t ht with
        h' | h' | h'
      · exact Or.inl h'
      · rcases List.mem_cons.mp h' with h'' | h''
        · exact Or.inr (Or.inr (by simp [h'']))
        · exact Or.inr (Or.inl h'')
      · exact Or.inr (Or.inr (List.mem_cons_of_mem _ h'))
    | binaryOp op =>
      simp only [convertLoop] at h
      obtain ⟨hp1, hp2⟩ :=
        popLoop_subset stack output (getPrecAssoc (Token.binaryOp op))
      rcases ih (popLoop (getPrecAssoc (Token.binaryOp op)) output stack).1
        (Token.binaryOp op ::
          (popLoop (getPrecAssoc (Token.binaryOp op)) output stack).2)
        out' stk' h t ht with h' | h' | h'
      · rcases hp1 t h' with h'' | h''
        · exact Or.inl h''
        · exact Or.inr (Or.inl h'')
      · rcases List.mem_cons.mp h' with h'' | h''
        · exact Or.inr (Or.inr (by simp [h'']))
        · rcases hp2 t h'' with h3
          exact Or.inr (Or.inl h3)
      · exact Or.inr (Or.inr (List.mem_cons_of_mem _ h'))
    | rparen =>
      simp only [convertLoop] at h
      cases hrp : rparenLoop output stack with
      | none => rw [hrp] at h; exact Except.noConfusion h
      | some os =>
        rw [hrp] at h
        obtain ⟨hr1, hr2⟩ := rparenLoop_subset stack output os.1 os.2
          (by rw [hrp])
        rcases ih os.1 os.2 out' stk' h t ht with h' | h' | h'
        · rcases hr1 t h' with h'' | h''
          · exact Or.inl h''
          · exact Or.inr (Or.inl h'')
        · exact Or.inr (Or.inl (hr2 t h'))
        · exact Or.inr (Or.inr (List.mem_cons_of_mem _ h'))

/-- Decomposition of a successful `convert`: the output is the drain of
the shunting-yard loop's state and passes `verify_rpn`. -/
theorem convert_parts {ts out : List Token} (h : convert ts = .ok out) :
    ∃ os, convertLoop [] [] ts = .ok os ∧ drainLoop os.1 os.2 = .ok out ∧
      verifyRpn out = .ok () := by
  unfold convert at h
  cases h1 : convertLoop [] [] ts with
  | error e => rw [h1] at h; exact Except.noConfusion h
  | ok os =>
    rw [h1] at h
    dsimp only at h
    cases h2 : drainLoop os.1 os.2 with
    | error e => rw [h2] at h; exact Except.noConfusion h
    | ok o =>
      rw [h2] at h
      dsimp only at h
      cases h3 : verifyRpn o with
      | error e => rw [h3] at h; exact Except.noConfusion h
      | ok u =>
        rw [h3] at h
        dsimp only at h
        simp only [Except.ok.injEq] at h
        subst h
        exact ⟨os, rfl, h2, by rw [h3]⟩

/-- Every token of a successful conversion's output occurs in its input. -/
theorem convert_subset {ts out : List Token} (h : convert ts = .ok out) :
    ∀ t ∈ out, t ∈ ts := by
  obtain ⟨os, h1, h2, _⟩ := convert_parts h
  intro t ht
  rcases drainLoop_subset os.2 os.1 out h2 t ht with h' | h'
  all_goals
    rcases convertLoop_subset ts [] [] os.1 os.2
        (by rw [h1]) t (by first | exact Or.inl h' | exact Or.inr h') with
      h'' | h'' | h''
  · exact absurd h'' (List.not_mem_nil t)
  · exact absurd h'' (List.not_mem_nil t)
  · exact h''
  · exact absurd h'' (List.not_mem_nil t)
  · exact absurd h'' (List.not_mem_nil t)
  · exact h''

/-- A token sequence accepted by `verify_rpn`'s loop contains no
parentheses (the `LParen | RParen` arm panics). -/
theorem verifyLoop_noparen : ∀ (ts : List Token) (n : Int),
    verifyLoop n ts = .ok () →
    ∀ t ∈ ts, t ≠ Token.lparen ∧ t ≠ Token.rparen := by
  intro ts
  induction ts with
  | nil => intro n h t ht; exact absurd ht (List.not_mem_nil t)
  | cons u ts ih =>
    intro n h t ht
    cases u with
    | lparen => simp only [verifyLoop] at h; exact Except.noConfusion h
    | rparen => simp only [verifyLoop] at h; exact Except.noConfusion h
    | number k =>
      simp only [verifyLoop] at h
      split at h
      · exact Except.noConfusion h
      · rcases List.mem_cons.mp ht with h' | h'
        · subst h'
          exact ⟨fun hcon => Token.noConfusion hcon,
            fun hcon => Token.noConfusion hcon⟩
        · exact ih _ h t h'
    | «variable» name =>
      simp only [verifyLoop] at h
      split at h
      · exact Except.noConfusion h
      · rcases List.mem_cons.mp ht with h' | h'
        · subst h'
          exact ⟨fun hcon => Token.noConfusion hcon,
            fun hcon => Token.noConfusion hcon⟩
        · exact ih _ h t h'
    | binaryOp op =>
      simp only [verifyLoop] at h
      split at h
      · exact Except.noConfusion h
      · rcases List.mem_cons.mp ht with h' | h'
        · subst h'
          exact ⟨fun hcon => Token.noConfusion hcon,
            fun hcon => Token.noConfusion hcon⟩
        · exact ih _ h t h'
    | unaryOp op =>
      simp only [verifyLoop] at h
      split at h
      · exact Except.noConfusion h
      · rcases List.mem_cons.mp ht with h' | h'
        · subst h'
          exact ⟨fun hcon => Token.noConfusion hcon,
            fun hcon => Token.noConfusion hcon⟩
        · exact ih _ h t h'

/-- Acceptance by `verify_rpn`'s loop, starting from operand balance `d`,
is exactly a successful run of the abstract stack-size simulation: the
final size is at most 1 (final `> 1` check) and, for a nonempty sequence,
at least 1 (per-step `< 1` check). -/
theorem verifyLoop_sizes : ∀ (ts : List Token) (d : Nat),
    verifyLoop (d : Int) ts = .ok () →
    ∃ d', simulateSizes ts d = some d' ∧ d' ≤ 1 ∧ (ts ≠ [] → 1 ≤ d') := by
  intro ts
  induction ts with
  | nil =>
    intro d h
    simp only [verifyLoop] at h
    split at h
    · exact Except.noConfusion h
    · rename_i hgt
      exact ⟨d, rfl, by omega, fun hne => absurd rfl hne⟩
  | cons u ts ih =>
    intro d h
    cases u with
    | lparen => simp only [verifyLoop] at h; exact Except.noConfusion h
    | rparen => simp only [verifyLoop] at h; exact Except.noConfusion h
    | number k =>
      simp only [verifyLoop] at h
      split at h
      · exact Except.noConfusion h
      · rw [show ((d : Int) + 1) = ((d + 1 : Nat) : Int) by push_cast; ring]
          at h
        obtain ⟨d', hs, h1, h2⟩ := ih (d + 1) h
        refine ⟨d', ?_, h1, fun _ => ?_⟩
        · rw [show simulateSizes (Token.number k :: ts) d =
            simulateSizes ts (d + 1) from rfl]
          exact hs
        · cases hts : ts with
          | nil =>
            rw [hts] at hs
            simp only [simulateSizes, Option.some.injEq] at hs
            omega
          | cons v vs => exact h2 (by rw [hts]; exact List.cons_ne_nil v vs)
    | «variable» name =>
      simp only [verifyLoop] at h
      split at h
      · exact Except.noConfusion h
      · rw [show ((d : Int) + 1) = ((d + 1 : Nat) : Int) by push_cast; ring]
          at h
        obtain ⟨d', hs, h1, h2⟩ := ih (d + 1) h
        refine ⟨d', ?_, h1, fun _ => ?_⟩
        · rw [show simulateSizes (Token.variable name :: ts) d =
            simulateSizes ts (d + 1) from rfl]
          exact hs
        · cases hts : ts with
          | nil =>
            rw [hts] at hs
            simp only [simulateSizes, Option.some.injEq] at hs
            omega
          | cons v vs => exact h2 (by rw [hts]; exact List.cons_ne_nil v vs)
    | binaryOp op =>
      simp only [verifyLoop] at h
      split at h
      · exact Except.noConfusion h
      · rename_i hlt
        have h2le : 2 ≤ d := by omega
        rw [show ((d : Int) - 1) = ((d - 1 : Nat) : Int) by omega] at h
        obtain ⟨d', hs, h1, h2⟩ := ih (d - 1) h
        refine ⟨d', ?_, h1, fun _ => ?_⟩
        · rw [show simulateSizes (Token.binaryOp op :: ts) d =
            if 2 ≤ d then simulateSizes ts (d - 1) else none from rfl,
            if_pos h2le]
          exact hs
        · cases hts : ts with
          | nil =>
            rw [hts] at hs
            simp only [simulateSizes, Option.some.injEq] at hs
            omega
          | cons v vs => exact h2 (by rw [hts]; exact List.cons_ne_nil v vs)
    | unaryOp op =>
      simp only [verifyLoop] at h
      split at h
      · exact Except.noConfusion h
      · rename_i hlt
        have h1le : 1 ≤ d := by omega
        obtain ⟨d', hs, h1, h2⟩ := ih d h
        refine ⟨d', ?_, h1, fun _ => ?_⟩
        · rw [show simulateSizes (Token.unaryOp op :: ts) d =
            if 1 ≤ d then simulateSizes ts d else none from rfl,
            if_pos h1le]
          exact hs
        · cases hts : ts with
          | nil =>
            rw [hts] at hs
            simp only [simulateSizes, Option.some.injEq] at hs
            omega
          | cons v vs => exact h2 (by rw [hts]; exact List.cons_ne_nil v vs)

/-- A successful run of the reference evaluator's loop realizes the
abstract stack-size simulation (for paren-free token sequences): the
final stack's size is what `simulateSizes` computes. -/
theorem rpnEvalLoop_length (f : String → Option Int) : ∀ (ts : List Token)
    (st st' : List Int),
    (∀ t ∈ ts, t ≠ Token.lparen ∧ t ≠ Token.rparen) →
    rpnEvalLoop f ts st = .ok st' →
    simulateSizes ts st.length = some st'.length := by
  intro ts
  induction ts with
  | nil =>
    intro st st' hnp h
    simp only [rpnEvalLoop, Except.ok.injEq] at h
    subst h
    rfl
  | cons u ts ih =>
    intro st st' hnp h
    have hnp' : ∀ t ∈ ts, t ≠ Token.lparen ∧ t ≠ Token.rparen :=
      fun t ht => hnp t (List.mem_cons_of_mem _ ht)
    cases u with
    | lparen => exact absurd rfl (hnp Token.lparen (List.mem_cons_self _ _)).1
    | rparen => exact absurd rfl (hnp Token.rparen (List.mem_cons_self _ _)).2
    | number n =>
      have h' : rpnEvalLoop f ts (n :: st) = .ok st' := h
      have := ih (n :: st) st' hnp' h'
      rw [show simulateSizes (Token.number n :: ts) st.length =
        simulateSizes ts (st.length + 1) from rfl]
      simpa only [List.length_cons] using this
    | «variable» name =>
      cases hf : f name with
      | none =>
        have h' : (match f name with
            | some v => rpnEvalLoop f ts (v :: st)
            | none => (.error (.unknownVariable name) :
                Except RpnEvalError (List Int))) = .ok st' := h
        rw [hf] at h'
        exact Except.noConfusion h'
      | some v =>
        have h' : (match f name with
            | some v => rpnEvalLoop f ts (v :: st)
            | none => (.error (.unknownVariable name) :
                Except RpnEvalError (List Int))) = .ok st' := h
        rw [hf] at h'
        have := ih (v :: st) st' hnp' h'
        rw [show simulateSizes (Token.variable name :: ts) st.length =
          simulateSizes ts (st.length + 1) from rfl]
        simpa only [List.length_cons] using this
    | binaryOp op =>
      match st with
      | [] => exact Except.noConfusion h
      | [b] => exact Except.noConfusion h
      | b :: a :: rest =>
        rw [show simulateSizes (Token.binaryOp op :: ts)
            (b :: a :: rest : List Int).length =
          if 2 ≤ (b :: a :: rest : List Int).length then
            simulateSizes ts ((b :: a :: rest : List Int).length - 1)
          else none from rfl, if_pos (by simp)]
        have hidx : (b :: a :: rest : List Int).length - 1 =
            rest.length + 1 := by simp
        rw [hidx]
        cases op with
        | plus =>
          have := ih (wrap64 (a + b) :: rest) st' hnp' h
          simpa only [List.length_cons] using this
        | minus =>
          have := ih (wrap64 (a - b) :: rest) st' hnp' h
          simpa only [List.length_cons] using this
        | mult =>
          have := ih (wrap64 (a * b) :: rest) st' hnp' h
          simpa only [List.length_cons] using this
        | pow =>
          have := ih (powFn a b :: rest) st' hnp' h
          simpa only [List.length_cons] using this
        | fact => exact Except.noConfusion h
        | div =>
          have h' : (if b = 0 ∨ (a = i64Min ∧ b = -1)
              then (.error .panicked : Except RpnEvalError (List Int))
              else rpnEvalLoop f ts (Int.tdiv a b :: rest)) = .ok st' := h
          split at h'
          · exact Except.noConfusion h'
          · have := ih (Int.tdiv a b :: rest) st' hnp' h'
            simpa only [List.length_cons] using this
    | unaryOp op =>
      match st with
      | [] => exact Except.noConfusion h
      | v :: rest =>
        rw [show simulateSizes (Token.unaryOp op :: ts)
            (v :: rest : List Int).length =
          if 1 ≤ (v :: rest : List Int).length then
            simulateSizes ts (v :: rest : List Int).length
          else none from rfl, if_pos (by simp)]
        cases op with
        | plus => exact ih (v :: rest) st' hnp' h
        | minus =>
          have := ih (wrap64 (-v) :: rest) st' hnp' h
          simpa only [List.length_cons] using this
        | fact =>
          have := ih (factorialFn v :: rest) st' hnp' h
          simpa only [List.length_cons] using this
        | mult => exact Except.noConfusion h
        | div => exact Except.noConfusion h
        | pow => exact Except.noConfusion h

theorem compileToken_ok (pA fA : Int) (vm : List String) {u : Token}
    (hok : tokOk u) (hlp : u ≠ Token.lparen) (hrp : u ≠ Token.rparen) :
    ∃ E vmx, compileToken pA fA vm u = .ok (E, vmx) := by
  cases u with
  | number n => exact ⟨_, _, rfl⟩
  | «variable» name => exact ⟨_, _, rfl⟩
  | lparen => exact absurd rfl hlp
  | rparen => exact absurd rfl hrp
  | binaryOp op =>
    cases op with
    | fact => exact absurd rfl hok
    | plus => exact ⟨_, _, rfl⟩
    | minus => exact ⟨_, _, rfl⟩
    | mult => exact ⟨_, _, rfl⟩
    | div => exact ⟨_, _, rfl⟩
    | pow => exact ⟨_, _, rfl⟩
  | unaryOp op =>
    cases op with
    | plus => exact ⟨_, _, rfl⟩
    | minus => exact ⟨_, _, rfl⟩
    | fact => exact ⟨_, _, rfl⟩
    | mult => rcases hok with h | h <;> exact Op.noConfusion h
    | div => rcases hok with h | h <;> exact Op.noConfusion h
    | pow => rcases hok with h | h <;> exact Op.noConfusion h

/-- `compileLoop` succeeds on every paren-free sequence of
tokenizer-shaped tokens. -/
theorem compileLoop_ok (pA fA : Int) : ∀ (ts : List Token)
    (vm : List String),
    (∀ t ∈ ts, tokOk t ∧ t ≠ Token.lparen ∧ t ≠ Token.rparen) →
    ∃ emits vm', compileLoop pA fA vm ts = .ok (emits, vm') := by
  intro ts
  induction ts with
  | nil => intro vm hall; exact ⟨[], vm, rfl⟩
  | cons u ts ih =>
    intro vm hall
    obtain ⟨hok, hlp, hrp⟩ := hall u (List.mem_cons_self _ _)
    obtain ⟨E, vmx, hct⟩ := compileToken_ok pA fA vm hok hlp hrp
    obtain ⟨e2, vm2, hrec⟩ := ih vmx
      (fun t ht => hall t (List.mem_cons_of_mem _ ht))
    refine ⟨E ++ e2, vm2, ?_⟩
    simp only [compileLoop]
    rw [hct]
    dsimp only
    rw [hrec]

/-- The machine state after the prologue and the two argument moves:
registers and memory all zero except the saved stack, `EVAL_STACK`
(`R14`) loaded from RDI = 0 and `VARS_BASE` (`R13`) loaded from RSI = 0. -/
def startMachine : Machine :=
  setReg (setReg ⟨fun _ => 0, fun _ => 0, [0, 0, 0, 0, 0, 0, 0, 0]⟩
    EVAL_STACK 0) VARS_BASE 0

theorem exec_popR_step (pA fA : Int) (r : Reg64) (v : Int) (s : List Int)
    (m : Machine) (hm : m.mstack = v :: s) :
    execInstr pA fA (Instr.popR r) m =
      some { setReg m r v with mstack := s } := by
  show (match m.mstack with
    | [] => none
    | v' :: rest => some { setReg m r v' with mstack := rest }) = _
  rw [hm]

/-- Executing a run of `pop` instructions into non-RAX registers unwinds
the machine stack and preserves RAX. -/
theorem exec_popRs (pA fA : Int) : ∀ (rs : List Reg64) (vs s : List Int)
    (m : Machine), vs.length = rs.length →
    (∀ r ∈ rs, r ≠ Reg64.rax) → m.mstack = vs ++ s →
    ∃ m', execInstrs pA fA (rs.map Instr.popR) m = some m' ∧
      m'.regs .rax = m.regs .rax ∧ m'.mstack = s := by
  intro rs
  induction rs with
  | nil =>
    intro vs s m hlen hrs hm
    have hv : vs = [] := List.length_eq_zero.mp hlen
    subst hv
    exact ⟨m, rfl, rfl, by simpa using hm⟩
  | cons r rs ih =>
    intro vs s m hlen hrs hm
    cases vs with
    | nil => simp at hlen
    | cons v vs =>
      have h1 : execInstr pA fA (Instr.popR r) m =
          some { setReg m r v with mstack := vs ++ s } :=
        exec_popR_step pA fA r v (vs ++ s) m (by rw [hm]; rfl)
      obtain ⟨m', hex, hrax, hstk⟩ := ih vs s
        { setReg m r v with mstack := vs ++ s }
        (by simp only [List.length_cons] at hlen; omega)
        (fun r' hr' => hrs r' (List.mem_cons_of_mem _ hr')) rfl
      have hmid : ({ setReg m r v with mstack := vs ++ s } :
          Machine).regs .rax = m.regs .rax := by
        show (setReg m r v).regs .rax = m.regs .rax
        rw [setReg_regs,
          if_neg (fun hh => (hrs r (List.mem_cons_self _ _)) hh.symm)]
      refine ⟨m', ?_, ?_, hstk⟩
      · rw [List.map_cons, execInstrs_cons_some h1]
        exact hex
      · rw [hrax, hmid]

/-- Executing the epilogue (eight pops) followed by `ret` from a state
whose machine stack holds the eight saved words succeeds and preserves
RAX. -/
theorem exec_epilogue_ret (pA fA : Int) (m : Machine) (vs : List Int)
    (hlen : vs.length = 8) (hm : m.mstack = vs) :
    ∃ m', execInstrs pA fA (List.map Prod.fst epilogue ++
        List.map Prod.fst [((Instr.ret : Instr), true)]) m = some m' ∧
      m'.regs .rax = m.regs .rax := by
  obtain ⟨m2, hex, hrax, _⟩ := exec_popRs pA fA
    [Reg64.rsi, .rdi, .rbp, .rbx, .r15, .r14, .r13, .r12] vs [] m
    (by rw [hlen]; rfl) (by intro r hr; fin_cases hr <;> decide)
    (by rw [hm, List.append_nil])
  refine ⟨m2, ?_, hrax⟩
  rw [show List.map Prod.fst epilogue ++
      List.map Prod.fst [((Instr.ret : Instr), true)] =
    ([Reg64.rsi, .rdi, .rbp, .rbx, .r15, .r14, .r13, .r12].map Instr.popR)
      ++ [Instr.ret] from rfl,
    execInstrs_append_some hex,
    execInstrs_cons_some (show execInstr pA fA Instr.ret m2 = some m2
      from rfl)]
  exact execInstrs_nil pA fA m2

theorem list_len_one {l : List Int} (h : l.length = 1) : ∃ v, l = [v] := by
  match l with
  | [v] => exact ⟨v, rfl⟩
  | [] => simp at h
  | a :: b :: t => simp at h

/-- C1 (amended): for every expression without variables whose
tokenization and RPN conversion succeed — with a NONEMPTY postfix
sequence (the empty one is accepted by the converter but diverges, see
the counterexample) whose length fits the 2048-slot eval-stack area, and
helper addresses that are distinct `i64` values — running the compiled
code with an empty variable map refines the reference RPN evaluator: when
the evaluator produces a value the machine returns exactly that 64-bit
value, and when the evaluator panics (division fault) the machine traps.
All arithmetic on both sides is wrapping 64-bit arithmetic. -/
theorem c1_jit_matches_reference
    (pA fA : Int) (hpA : isI64 pA) (hfA : isI64 fA) (hne : pA ≠ fA)
    (s : String) (ts : List Token) (tk' : Tokenizer) (out : List Token)
    (htok : tokenize Tokenizer.new s = .ok (ts, tk'))
    (hnov : ∀ name, Token.variable name ∉ ts)
    (hconv : convert ts = .ok out)
    (hne0 : out ≠ [])
    (hcap : out.length ≤ 2048) :
    (∀ v, rpnEvaluate out (fun _ => none) = .ok v →
      jitRun pA fA out = some v) ∧
    (∀ e, rpnEvaluate out (fun _ => none) = .error e →
      jitRun pA fA out = none) := by
  have htk : ∀ t ∈ ts, tokOk t := tokenize_tokOk htok
  have hsub : ∀ t ∈ out, t ∈ ts := convert_subset hconv
  obtain ⟨os, hcl0, hdr, hver⟩ := convert_parts hconv
  have hver' : verifyLoop ((0 : Nat) : Int) out = .ok () := hver
  have hnp : ∀ t ∈ out, t ≠ Token.lparen ∧ t ≠ Token.rparen :=
    verifyLoop_noparen out _ hver'
  obtain ⟨d', hs, hle, hge⟩ := verifyLoop_sizes out 0 hver'
  have hd1 : d' = 1 := le_antisymm hle (hge hne0)
  subst hd1
  have hallOut : ∀ t ∈ out, tokOk t ∧ t ≠ Token.lparen ∧
      t ≠ Token.rparen :=
    fun t ht => ⟨htk t (hsub t ht), (hnp t ht).1, (hnp t ht).2⟩
  obtain ⟨emits, vmF, hcl⟩ := compileLoop_ok pA fA out [] hallOut
  have hnumOut : ∀ n, Token.number n ∈ out → isI64 n := by
    intro n hn
    have hok := htk _ (hsub _ hn)
    obtain ⟨h1, h2⟩ := hok
    unfold i64Max at h2
    unfold isI64
    omega
  have hnovOut : ∀ name, Token.variable name ∉ out :=
    fun name hn => hnov name (hsub _ hn)
  have hcompile : compile pA fA out = .ok (prologue ++
      [(.movRR EVAL_STACK .rdi, true), (.movRR VARS_BASE .rsi, true)] ++
      emits ++ popEval .rax ++ epilogue ++ [(.ret, true)], vmF) := by
    unfold compile
    rw [hcl]
  have hpro : execInstrs pA fA (List.map Prod.fst prologue) initMachine =
      some ⟨fun _ => 0, fun _ => 0, [0, 0, 0, 0, 0, 0, 0, 0]⟩ := rfl
  have hmovs : execInstrs pA fA (List.map Prod.fst
      ([(.movRR EVAL_STACK .rdi, true), (.movRR VARS_BASE .rsi, true)] :
        List Emit))
      ⟨fun _ => 0, fun _ => 0, [0, 0, 0, 0, 0, 0, 0, 0]⟩ =
      some startMachine := rfl
  have hinvStart : MachInv [] startMachine := by
    refine ⟨?_, ?_, ?_, ?_⟩
    · show (setReg (setReg _ EVAL_STACK 0) VARS_BASE 0).regs EVAL_STACK = _
      rw [setReg_regs, if_neg (by decide), setReg_regs, if_pos rfl]
      simp
    · intro r
      show isI64 ((setReg (setReg _ EVAL_STACK 0) VARS_BASE 0).regs r)
      rw [setReg_regs]
      split
      · decide
      · rw [setReg_regs]
        split
        · decide
        · exact (show isI64 (0 : Int) from by decide)
    · intro j hj
      exact absurd hj (by simp)
    · intro x hx
      exact absurd hx (List.not_mem_nil x)
  have hsim := compile_simulates pA fA hpA hfA hne (fun _ => none) out
    [] emits vmF [] startMachine hnumOut hnovOut hcl
    (show (simulateSizes out 0).isSome from by rw [hs]; rfl)
    (by simpa using hcap) hinvStart
  constructor
  · intro v hv
    cases hev : rpnEvalLoop (fun _ => none) out [] with
    | error e =>
      have hv' : (Except.error e : Except RpnEvalError Int) = .ok v := by
        rw [← hv]
        unfold rpnEvaluate
        rw [hev]
      exact Except.noConfusion hv'
    | ok st' =>
      have hlen : simulateSizes out (([] : List Int)).length =
          some st'.length :=
        rpnEvalLoop_length (fun _ => none) out [] st' hnp hev
      rw [show (([] : List Int)).length = 0 from rfl, hs] at hlen
      injection hlen with hlen1
      obtain ⟨w, rfl⟩ := list_len_one hlen1.symm
      have hokw : rpnEvaluate out (fun _ => none) = .ok w := by
        unfold rpnEvaluate
        rw [hev]
      have hwv : w = v := by
        have h2 := hokw.symm.trans hv
        injection h2
      subst hwv
      obtain ⟨mB, hexB, hinvB, hstkB⟩ := hsim.1 [w] hev
      obtain ⟨m4, hex4, hinv4, hr4, hmem4, hstk4, hpres4⟩ :=
        exec_popEval pA fA Reg64.rax (by decide) w [] mB hinvB
      have hm4stk : m4.mstack = [0, 0, 0, 0, 0, 0, 0, 0] := by
        rw [hstk4, hstkB]
        rfl
      obtain ⟨mF, hexF, hraxF⟩ := exec_epilogue_ret pA fA m4
        [0, 0, 0, 0, 0, 0, 0, 0] rfl hm4stk
      unfold jitRun
      rw [hcompile]
      dsimp only
      simp only [List.map_append, List.append_assoc]
      rw [execInstrs_append_some hpro, execInstrs_append_some hmovs,
        execInstrs_append_some hexB,
        show List.map Prod.fst (popEval Reg64.rax) =
          [Instr.subRI EVAL_STACK 8, Instr.movRM Reg64.rax EVAL_STACK 0]
          from rfl,
        execInstrs_append_some hex4, hexF]
      show some (mF.regs .rax) = some w
      rw [hraxF, hr4]
  · intro e he
    cases hev : rpnEvalLoop (fun _ => none) out [] with
    | ok st' =>
      have hlen : simulateSizes out (([] : List Int)).length =
          some st'.length :=
        rpnEvalLoop_length (fun _ => none) out [] st' hnp hev
      rw [show (([] : List Int)).length = 0 from rfl, hs] at hlen
      injection hlen with hlen1
      obtain ⟨w, rfl⟩ := list_len_one hlen1.symm
      have hokw : rpnEvaluate out (fun _ => none) = .ok w := by
        unfold rpnEvaluate
        rw [hev]
      rw [hokw] at he
      exact Except.noConfusion he
    | error e2 =>
      have hnone := hsim.2 e2 hev
      unfold jitRun
      rw [hcompile]
      dsimp only
      simp only [List.map_append, List.append_assoc]
      rw [execInstrs_append_some hpro, execInstrs_append_some hmovs,
        execInstrs_append_none _ hnone]
      rfl

/-- C1 counterexample to the unrestricted claim: the empty expression
(also reachable as `"()"`) tokenizes and converts successfully to the
empty postfix sequence, the reference evaluator rejects it (its final
stack check finds zero values, a panic), yet the compiled code runs fine
and returns 0 — the value popped from below the empty eval-stack area. So
`run({}) == reference_evaluator(postfix)` fails for it. -/
theorem c1_counterexample :
    tokenize Tokenizer.new "" = .ok ([], Tokenizer.new) ∧
    convert [] = .ok [] ∧
    rpnEvaluate [] (fun _ => none) = .error .panicked ∧
    jitRun 4096 8192 [] = some 0 :=
  ⟨rfl, rfl, rfl, rfl⟩

/-- Witness for C1: the expression `1+2*3` tokenizes to
`1 + 2 * 3`, converts to the postfix `1 2 3 * +`, and the compiled code
(helpers at 4096 and 8192) returns 7, matching the reference evaluator. -/
theorem c1_jit_matches_reference_witness :
    jitRun 4096 8192 [Token.number 1, Token.number 2, Token.number 3,
      Token.binaryOp Op.mult, Token.binaryOp Op.plus] = some 7 := by
  have h := c1_jit_matches_reference 4096 8192 (by decide) (by decide)
    (by decide) "1+2*3"
    [Token.number 1, Token.binaryOp Op.plus, Token.number 2,
      Token.binaryOp Op.mult, Token.number 3]
    ⟨some (Token.number 3), []⟩
    [Token.number 1, Token.number 2, Token.number 3,
      Token.binaryOp Op.mult, Token.binaryOp Op.plus]
    rfl
    (by intro name hmem; simp at hmem)
    rfl
    (by simp)
    (by simp)
  exact h.1 7 rfl

end SparkJit
